import Mathlib

/-!
Verification of the folder/file renaming tool in `rename_files.py`.

The program extracts a zip archive into a temporary directory, then

* Pass A (`os.walk` loop, lines 84-102): every directory whose name,
  uppercased, starts with `"AC"` and contains a digit run is renamed to
  `str(int(first digit run))`, unless the target name already exists as a
  sibling; successfully renamed folders are recorded in
  `renamed_folder_map` and removed from the pending `dirs` list so the
  walk does not descend into them.
* Pass B (lines 109-139): every entry directly inside a folder that
  appears as a value of the rename map, whose name lowercased ends in
  `.pdf` and fully matches `^(S\d{2})A(\d{3})(\d{4})\.pdf$`
  (case-insensitive), is renamed to
  `{group1.upper()}_{int(group2)}_{int(group3)}.pdf` with no collision
  check (POSIX `os.rename` silently overwrites an existing target).
* Repackaging (lines 146-156): `os.walk` over the extraction root writes
  every file into a fresh zip under its path relative to that root.

The development models the directory tree as a finite labelled tree,
translates the three phases into pure functions over it, and proves the
claimed properties.
-/

/-- Numeric value of a list of decimal digit characters, exactly as
Python `int` evaluates a string of digits (and as a left fold). -/
def digitsVal (l : List Char) : Nat :=
  l.foldl (fun n c => 10 * n + (c.toNat - 48)) 0

/-- Scanner for the maximal digit runs of a character list: `acc` holds
the reversed digits of the run currently being read. -/
def digitRunsAux : List Char → List Char → List (List Char)
  | [], [] => []
  | [], a :: as => [(a :: as).reverse]
  | c :: cs, acc =>
    if c.isDigit then
      digitRunsAux cs (c :: acc)
    else
      match acc with
      | [] => digitRunsAux cs []
      | a :: as => (a :: as).reverse :: digitRunsAux cs []

/-- All maximal runs of decimal digits in a character list, in order:
the model of `re.findall(r'\d+', s)`. -/
def digitRuns (l : List Char) : List (List Char) :=
  digitRunsAux l []

/-- Spec-side description of the first maximal digit run of a name: drop
the longest digit-free head, then take the digits that follow. -/
def firstDigitRun (s : String) : Option (List Char) :=
  match (s.toList.dropWhile (fun c => !c.isDigit)).takeWhile Char.isDigit with
  | [] => none
  | r => some r

/-- Model of `dir_name.upper().startswith('AC')`: the first two
characters, uppercased, are `A` and `C`. -/
def upperStartsWithAC (s : String) : Bool :=
  match s.toList with
  | c0 :: c1 :: _ => c0.toUpper == 'A' && c1.toUpper == 'C'
  | _ => false

/-- Pass A per-name rule (lines 86-90): for an `AC`-prefixed name with a
digit run, the new name is `str(int(numbers[0]))`; otherwise there is no
rename. -/
def acNewName (name : String) : Option String :=
  if upperStartsWithAC name then
    match digitRuns name.toList with
    | [] => none
    | r :: _ => some (Nat.repr (digitsVal r))
  else
    none

/-- Model of `filename.lower().endswith('.pdf')`. -/
def lowerEndsWithPdf (s : String) : Bool :=
  match s.toList.reverse with
  | cf :: cd :: cp :: cdot :: _ =>
    cf.toLower == 'f' && cd.toLower == 'd' && cp.toLower == 'p' && cdot.toLower == '.'
  | _ => false

/-- Model of `re.match(r'^(S\d{2})A(\d{3})(\d{4})\.pdf$', filename,
re.IGNORECASE)` together with the group extraction of lines 123-125:
returns `(group(1).upper(), int(group(2)), int(group(3)))` on a match. -/
def matchPdfName (s : String) : Option (String × Nat × Nat) :=
  match s.toList with
  | [c0, c1, c2, c3, c4, c5, c6, c7, c8, c9, c10, c11, c12, c13, c14] =>
    if (c0 == 'S' || c0 == 's') && c1.isDigit && c2.isDigit
        && (c3 == 'A' || c3 == 'a') && c4.isDigit && c5.isDigit && c6.isDigit
        && c7.isDigit && c8.isDigit && c9.isDigit && c10.isDigit
        && c11 == '.' && (c12 == 'P' || c12 == 'p')
        && (c13 == 'D' || c13 == 'd') && (c14 == 'F' || c14 == 'f') then
      some (String.mk [c0.toUpper, c1.toUpper, c2.toUpper],
            digitsVal [c4, c5, c6], digitsVal [c7, c8, c9, c10])
    else
      none
  | _ => none

/-- Pass B per-name rule (lines 120-127): the new filename
`f"{part1}_{part2_num}_{part3_num}.pdf"` for a matching name. -/
def pdfTarget (s : String) : Option String :=
  (matchPdfName s).map
    (fun g => g.1 ++ "_" ++ Nat.repr g.2.1 ++ "_" ++ Nat.repr g.2.2 ++ ".pdf")

example : acNewName "AC001" = some "1" := by decide
example : acNewName "ac07x9" = some "7" := by decide
example : acNewName "ACfoo" = none := by decide
example : acNewName "B001" = none := by decide
example : pdfTarget "S03A0010095.pdf" = some "S03_1_95.pdf" := by decide
example : pdfTarget "S03A0010095.PDF" = some "S03_1_95.pdf" := by decide
example : pdfTarget "S3A0010095.pdf" = none := by decide
example : pdfTarget "S03_1_95.pdf" = none := by decide
example : lowerEndsWithPdf "x.PdF" = true := by decide

/-- A node of the extracted working tree: a file with its byte content,
or a directory with an ordered list of named children (the listing
order that `os.walk`/`os.listdir` report). -/
inductive FSNode where
  | file (content : List Nat) : FSNode
  | dir (children : List (String × FSNode)) : FSNode
deriving Repr

mutual
/-- Boolean equality of trees. -/
def FSNode.beq : FSNode → FSNode → Bool
  | .file a, .file b => a == b
  | .dir a, .dir b => beqChildren a b
  | _, _ => false
/-- Boolean equality of child listings. -/
def beqChildren : List (String × FSNode) → List (String × FSNode) → Bool
  | [], [] => true
  | c :: cs, d :: ds => c.1 == d.1 && FSNode.beq c.2 d.2 && beqChildren cs ds
  | _, _ => false
end

mutual
theorem FSNode.beq_iff : ∀ a b : FSNode, FSNode.beq a b = true ↔ a = b
  | .file a, .file b => by simp [FSNode.beq]
  | .file a, .dir b => by simp [FSNode.beq]
  | .dir a, .file b => by simp [FSNode.beq]
  | .dir a, .dir b => by simp [FSNode.beq, beqChildren_iff a b]
theorem beqChildren_iff : ∀ a b : List (String × FSNode),
    beqChildren a b = true ↔ a = b
  | [], [] => by simp [beqChildren]
  | [], d :: ds => by simp [beqChildren]
  | c :: cs, [] => by simp [beqChildren]
  | c :: cs, d :: ds => by
    simp only [beqChildren, Bool.and_eq_true, beq_iff_eq,
      FSNode.beq_iff c.2 d.2, beqChildren_iff cs ds, List.cons.injEq]
    constructor
    · rintro ⟨⟨h1, h2⟩, h3⟩
      exact ⟨Prod.ext h1 h2, h3⟩
    · rintro ⟨h1, h3⟩
      exact ⟨⟨congrArg Prod.fst h1, congrArg Prod.snd h1⟩, h3⟩
end

instance : DecidableEq FSNode :=
  fun a b => decidable_of_iff (FSNode.beq a b = true) (FSNode.beq_iff a b)

/-- Whether a node is a directory. -/
def FSNode.isDir : FSNode → Bool
  | .dir _ => true
  | .file _ => false

/-- Follow a path of component names from a node. -/
def lookupNode : FSNode → List String → Option FSNode
  | t, [] => some t
  | .file _, _ :: _ => none
  | .dir ch, n :: rest =>
    match ch.find? (fun c => c.1 == n) with
    | some c => lookupNode c.2 rest
    | none => none

/-- The byte content of the file at a path, if a file lives there. -/
def lookupFile (t : FSNode) (p : List String) : Option (List Nat) :=
  match lookupNode t p with
  | some (.file b) => some b
  | _ => none

/-- Whether a directory lives at the given path. -/
def isDirAt (t : FSNode) (p : List String) : Bool :=
  match lookupNode t p with
  | some (.dir _) => true
  | _ => false

/-- The children names of a listing are pairwise distinct (true of any
real directory listing). -/
def nodupKeys : List (String × FSNode) → Bool
  | [] => true
  | c :: cs => !(cs.any (fun d => d.1 == c.1)) && nodupKeys cs

mutual
/-- Well-formedness of a tree: every directory's children carry
pairwise distinct names. -/
def wfTree : FSNode → Bool
  | .file _ => true
  | .dir ch => nodupKeys ch && wfChildren ch
def wfChildren : List (String × FSNode) → Bool
  | [] => true
  | c :: cs => wfTree c.2 && wfChildren cs
end

mutual
/-- Every directory strictly inside the tree has at least one child. -/
def noEmptyDirs : FSNode → Bool
  | .file _ => true
  | .dir ch => neChildren ch
def neChildren : List (String × FSNode) → Bool
  | [] => true
  | c :: cs =>
    (match c.2 with
     | .dir [] => false
     | _ => true) && noEmptyDirs c.2 && neChildren cs
end

example : wfTree (.dir [("a", .file [1]), ("b", .dir [])]) = true := by decide
example : wfTree (.dir [("a", .file [1]), ("a", .dir [])]) = false := by decide
example : noEmptyDirs (.dir [("a", .file [1]), ("b", .dir [])]) = false := by decide

/-- Outcome of one Pass A rename attempt (lines 92-102): the rename was
applied, skipped because the target name already existed, or the
underlying move raised and was caught. -/
inductive AStatus where
  | applied : AStatus
  | skippedCollision : AStatus
  | failed : AStatus
deriving Repr, DecidableEq

/-- One logged Pass A action: the path of the directory's parent
relative to the walk root, the original name, the computed new name and
the outcome. -/
structure AAction where
  pref : List String
  old : String
  tgt : String
  status : AStatus
deriving Repr, DecidableEq

/-- The inner loop of Pass A at one directory level (lines 85-102).
`pending` is the snapshot `list(dirs)` of subdirectory names, `names`
the current full listing of the parent (what `os.path.exists` can see).
Returns the successful renames `(old, new)` in order and the log.
A failure oracle `fails` models `shutil.move` raising; a failed move
leaves the filesystem unchanged. -/
def renameLoop (fails : String → Bool) : List String → List String →
    List (String × String) × List AAction
  | [], _ => ([], [])
  | dn :: rest, names =>
    match acNewName dn with
    | none => renameLoop fails rest names
    | some nn =>
      if names.contains nn then
        let r := renameLoop fails rest names
        (r.1, ⟨[], dn, nn, .skippedCollision⟩ :: r.2)
      else if fails dn then
        let r := renameLoop fails rest names
        (r.1, ⟨[], dn, nn, .failed⟩ :: r.2)
      else
        let r := renameLoop fails rest (names.map (fun x => if x == dn then nn else x))
        ((dn, nn) :: r.1, ⟨[], dn, nn, .applied⟩ :: r.2)

/-- Result of Pass A on a subtree: the mutated subtree, the rename map
entries `(parent path, old name, new name)` in insertion order, and the
ordered action log. -/
structure PassARes where
  tree : FSNode
  rmap : List (List String × String × String)
  log : List AAction
deriving Repr

mutual
/-- Pass A (lines 84-102) on a subtree, as the recursive unfolding of
the top-down `os.walk`: at each directory, run the rename loop over the
snapshot of subdirectory names, then descend into exactly the directory
children that were not successfully renamed (a successful rename does
`dirs.remove(dir_name)`, and the new name was never in `dirs`). -/
def passANode (fails : List String → Bool) : FSNode → PassARes
  | .file b => ⟨.file b, [], []⟩
  | .dir ch =>
    let dirNames := (ch.filter (fun c => c.2.isDir)).map (fun c => c.1)
    let p := renameLoop (fun n => fails [n]) dirNames (ch.map (fun c => c.1))
    let subs := passAList fails p.1 ch
    ⟨.dir (subs.map (fun s => s.1)),
     p.1.map (fun r => ([], r.1, r.2)) ++ (subs.map (fun s => s.2.1)).flatten,
     p.2 ++ (subs.map (fun s => s.2.2)).flatten⟩
/-- Applies the level's successful renames `rs` to the children and
recurses into the directories that stayed in the pending list. -/
def passAList (fails : List String → Bool) (rs : List (String × String)) :
    List (String × FSNode) →
    List ((String × FSNode) × List (List String × String × String) × List AAction)
  | [] => []
  | c :: cs =>
    (match rs.find? (fun r => r.1 == c.1) with
     | some r => ((r.2, c.2), [], [])
     | none =>
       if c.2.isDir then
         let q := passANode (fun pp => fails (c.1 :: pp)) c.2
         ((c.1, q.tree),
          q.rmap.map (fun m => (c.1 :: m.1, m.2)),
          q.log.map (fun a => ⟨c.1 :: a.pref, a.old, a.tgt, a.status⟩))
       else ((c.1, c.2), [], []))
    :: passAList fails rs cs
end

/-- A run with no move failures. -/
def noFail : List String → Bool := fun _ => false

example :
    (passANode noFail (.dir [("AC001", .dir [("S03A0010095.pdf", .file [7])]),
                             ("AC002", .dir []), ("b.txt", .file [1])])).rmap
      = [([], "AC001", "1"), ([], "AC002", "2")] := by decide

example :
    (passANode noFail (.dir [("AC001", .dir []), ("1", .dir [])])).log
      = [⟨[], "AC001", "1", .skippedCollision⟩] := by decide

example :
    (passANode noFail (.dir [("x", .dir [("AC9", .dir [])])])).rmap
      = [(["x"], "AC9", "9")] := by decide

/-- Outcome of one Pass B attempt: renamed, the `os.rename` raised and
was caught (lines 132-137), or the name did not match the pattern. -/
inductive BStatus where
  | applied : BStatus
  | failed : BStatus
  | skippedNoMatch : BStatus
deriving Repr, DecidableEq

/-- One logged Pass B action inside a scanned folder. -/
structure BAction where
  name : String
  tgt : Option String
  status : BStatus
deriving Repr, DecidableEq

/-- POSIX `os.rename old new` on a directory listing: the entry named
`old` is removed and reappears under `new`; an existing entry named
`new` is silently replaced. -/
def renameEntry (children : List (String × FSNode)) (old nw : String) :
    List (String × FSNode) :=
  match children.find? (fun c => c.1 == old) with
  | none => children
  | some e =>
    let rest := children.filter (fun c => c.1 != old)
    if rest.any (fun c => c.1 == nw) then
      rest.map (fun c => if c.1 == nw then (nw, e.2) else c)
    else
      rest ++ [(nw, e.2)]

/-- The file loop of Pass B inside one folder (lines 118-139).
`pending` is the `os.listdir` snapshot; `cur` the current listing.
For each name ending in `.pdf` (case-insensitively) that matches the
pattern, the file is moved onto the target name with no collision
check; exceptions (oracle `fails`, or the source already renamed away)
are caught and logged. -/
def passBLoop (fails : String → Bool) : List String → List (String × FSNode) →
    List (String × FSNode) × List BAction
  | [], cur => (cur, [])
  | fn :: rest, cur =>
    if lowerEndsWithPdf fn then
      match pdfTarget fn with
      | some nn =>
        if (cur.find? (fun c => c.1 == fn)).isSome && !fails fn then
          let r := passBLoop fails rest (renameEntry cur fn nn)
          (r.1, ⟨fn, some nn, .applied⟩ :: r.2)
        else
          let r := passBLoop fails rest cur
          (r.1, ⟨fn, some nn, .failed⟩ :: r.2)
      | none =>
        let r := passBLoop fails rest cur
        (r.1, ⟨fn, none, .skippedNoMatch⟩ :: r.2)
    else
      passBLoop fails rest cur

/-- Pass B over one folder: iterate the listing snapshot. -/
def passBFolder (fails : String → Bool) (children : List (String × FSNode)) :
    List (String × FSNode) × List BAction :=
  passBLoop fails (children.map (fun c => c.1)) children

/-- Replace the children of the directory at a path. -/
def setChildren : FSNode → List String → List (String × FSNode) → FSNode
  | .dir _, [], newCh => .dir newCh
  | .dir ch, n :: rest, newCh =>
    .dir (ch.map (fun c => if c.1 == n then (c.1, setChildren c.2 rest newCh) else c))
  | t, _, _ => t

/-- Pass B over the whole tree (lines 109-139): scan, one level deep,
exactly the folders listed in `paths` (the values of the Pass A rename
map), in order. -/
def passBAll (fails : List String → Bool) (t : FSNode) :
    List (List String) → FSNode × List (List String × BAction)
  | [] => (t, [])
  | fp :: rest =>
    match lookupNode t fp with
    | some (.dir ch) =>
      let r := passBLoop (fun n => fails (fp ++ [n])) (ch.map (fun c => c.1)) ch
      let r2 := passBAll fails (setChildren t fp r.1) rest
      (r2.1, r.2.map (fun a => (fp, a)) ++ r2.2)
    | _ => passBAll fails t rest

/-- The folder paths Pass B scans: the values of the Pass A rename map,
`final_renamed_paths = list(renamed_folder_map.values())` (line 109). -/
def scannedPaths (a : PassARes) : List (List String) :=
  a.rmap.map (fun e => e.1 ++ [e.2.2])

/-- The whole renaming pipeline on an extracted tree: Pass A, then
Pass B over the renamed folders. -/
def pipeline (failsA failsB : List String → Bool) (t : FSNode) :
    FSNode × PassARes × List (List String × BAction) :=
  let a := passANode failsA t
  let b := passBAll failsB a.tree (scannedPaths a)
  (b.1, a, b.2)

example :
    (pipeline noFail noFail
      (.dir [("AC001", .dir [("S03A0010095.pdf", .file [7]), ("n.txt", .file [2])])])).1
      = .dir [("1", .dir [("n.txt", .file [2]), ("S03_1_95.pdf", .file [7])])] := by decide

example :
    (passBFolder (fun _ => false)
      [("S03A0010095.pdf", .file [1]), ("S03A0010095.PDF", .file [2])]).1
      = [("S03_1_95.pdf", .file [2])] := by decide

mutual
/-- The repackaging walk (lines 150-156): `os.walk` over the extraction
root, writing every file under its path relative to the root — a file
entry list `(relative path, bytes)`. At each directory the walk yields
its files first, then recurses into each subdirectory in order. -/
def zipEntries : FSNode → List (List String × List Nat)
  | .file _ => []
  | .dir ch =>
    (ch.filterMap (fun c =>
      match c.2 with
      | .file b => some ([c.1], b)
      | .dir _ => none))
    ++ zipChildren ch
/-- Entries contributed by the subdirectories of a listing. -/
def zipChildren : List (String × FSNode) → List (List String × List Nat)
  | [] => []
  | c :: cs => (zipEntries c.2).map (fun e => (c.1 :: e.1, e.2)) ++ zipChildren cs
end

/-- `zipfile.extractall` creating one file entry: intermediate
directories are created as needed; an existing file at the final path
is overwritten. -/
def insertPath : FSNode → List String → List Nat → FSNode
  | t, [], _ => t
  | .file b, _ :: _, _ => .file b
  | .dir ch, [n], bytes =>
    if ch.any (fun c => c.1 == n) then
      .dir (ch.map (fun c => if c.1 == n then (n, .file bytes) else c))
    else
      .dir (ch ++ [(n, .file bytes)])
  | .dir ch, n :: m :: rest, bytes =>
    match ch.find? (fun c => c.1 == n) with
    | some e =>
      .dir (ch.map (fun c => if c.1 == n then (n, insertPath e.2 (m :: rest) bytes) else c))
    | none =>
      .dir (ch ++ [(n, insertPath (.dir []) (m :: rest) bytes)])

/-- Extraction of an entry list starting from a given root. -/
def extractFold (t : FSNode) (es : List (List String × List Nat)) : FSNode :=
  es.foldl (fun t e => insertPath t e.1 e.2) t

/-- Extraction of an archive into a fresh directory. -/
def extractTree (es : List (List String × List Nat)) : FSNode :=
  extractFold (.dir []) es

mutual
/-- What re-extracting the repackaged archive reconstructs: at each
level, the files in listing order followed by the subdirectories that
contribute at least one file entry, in order — subtrees with no files
at all (empty directory chains) are dropped, because the zip walk
writes only files. -/
def canon : FSNode → FSNode
  | .file b => .file b
  | .dir ch =>
    .dir ((ch.filterMap (fun c =>
            match c.2 with
            | .file b => some (c.1, FSNode.file b)
            | .dir _ => none))
          ++ canonChildren ch)
/-- The reconstructed subdirectory entries of a listing. -/
def canonChildren : List (String × FSNode) → List (String × FSNode)
  | [] => []
  | c :: cs =>
    (match c.2 with
     | .dir _ =>
       if (zipEntries c.2).isEmpty then canonChildren cs
       else (c.1, canon c.2) :: canonChildren cs
     | .file _ => canonChildren cs)
end

example :
    zipEntries (.dir [("a.txt", .file [1]), ("d", .dir [("b.txt", .file [2])])])
      = [(["a.txt"], [1]), (["d", "b.txt"], [2])] := by decide
example :
    extractTree [(["a.txt"], [1]), (["d", "b.txt"], [2])]
      = .dir [("a.txt", .file [1]), ("d", .dir [("b.txt", .file [2])])] := by decide
example :
    extractTree (zipEntries (.dir [("d", .dir []), ("a", .file [5])]))
      = .dir [("a", .file [5])] := by decide

/-! Character and decimal-representation groundwork. -/

theorem digit_bounds (c : Char) (h : c.isDigit = true) :
    48 ≤ c.toNat ∧ c.toNat ≤ 57 := by
  simp only [Char.isDigit, ge_iff_le, Bool.and_eq_true, decide_eq_true_eq] at h
  obtain ⟨h1, h2⟩ := h
  exact ⟨h1, h2⟩

theorem digit_toUpper (c : Char) (h : c.isDigit = true) : c.toUpper = c := by
  obtain ⟨h1, h2⟩ := digit_bounds c h
  unfold Char.toUpper
  rw [if_neg]
  omega

theorem digit_beq_A (c : Char) (h : c.isDigit = true) : (c == 'A') = false := by
  have hne : c ≠ 'A' := by
    intro he
    subst he
    exact absurd h (by decide)
  simp [hne]

theorem digitChar_isDigit (n : Nat) (h : n < 10) : (Nat.digitChar n).isDigit = true := by
  interval_cases n <;> decide

theorem toDigitsCore_all_digits : ∀ (fuel n : Nat) (ds : List Char),
    (∀ c ∈ ds, c.isDigit = true) →
    ∀ c ∈ Nat.toDigitsCore 10 fuel n ds, c.isDigit = true := by
  intro fuel
  induction fuel with
  | zero => intro n ds h c hc; exact h c hc
  | succ f ih =>
    intro n ds h c hc
    simp only [Nat.toDigitsCore] at hc
    have hds : ∀ c ∈ Nat.digitChar (n % 10) :: ds, c.isDigit = true := by
      intro c' hc'
      rcases List.mem_cons.mp hc' with h' | h'
      · subst h'; exact digitChar_isDigit _ (Nat.mod_lt _ (by omega))
      · exact h c' h'
    by_cases h10 : n / 10 = 0
    · rw [if_pos h10] at hc
      exact hds c hc
    · rw [if_neg h10] at hc
      exact ih _ _ hds c hc

theorem toDigitsCore_ne_nil : ∀ (fuel n : Nat) (ds : List Char), ds ≠ [] →
    Nat.toDigitsCore 10 fuel n ds ≠ [] := by
  intro fuel
  induction fuel with
  | zero => intro n ds h; exact h
  | succ f ih =>
    intro n ds h
    simp only [Nat.toDigitsCore]
    by_cases h10 : n / 10 = 0
    · rw [if_pos h10]; simp
    · rw [if_neg h10]; exact ih _ _ (by simp)

theorem repr_toList (k : Nat) : (Nat.repr k).toList = Nat.toDigits 10 k := rfl

theorem repr_all_digits (k : Nat) : ∀ c ∈ (Nat.repr k).toList, c.isDigit = true := by
  rw [repr_toList]
  unfold Nat.toDigits
  exact toDigitsCore_all_digits _ _ _ (by simp)

theorem repr_toList_ne_nil (k : Nat) : (Nat.repr k).toList ≠ [] := by
  rw [repr_toList]
  unfold Nat.toDigits
  simp only [Nat.toDigitsCore]
  by_cases h10 : k / 10 = 0
  · rw [if_pos h10]; simp
  · rw [if_neg h10]; exact toDigitsCore_ne_nil _ _ _ (by simp)

/-- A bare integer name never carries the `AC` prefix, so Pass A never
touches a folder it has already renamed. -/
theorem repr_not_AC (k : Nat) : upperStartsWithAC (Nat.repr k) = false := by
  unfold upperStartsWithAC
  rcases hl : (Nat.repr k).toList with _ | ⟨c0, _ | ⟨c1, rest⟩⟩
  · rfl
  · rfl
  · have hd : c0.isDigit = true := by
      apply repr_all_digits k
      rw [hl]; simp
    show (c0.toUpper == 'A' && c1.toUpper == 'C') = false
    rw [digit_toUpper c0 hd, digit_beq_A c0 hd]
    simp

/-- Applying the Pass A rule to a name it has itself produced is a
no-op. -/
theorem acNewName_repr (k : Nat) : acNewName (Nat.repr k) = none := by
  unfold acNewName
  rw [repr_not_AC k]
  simp

/-! The first element of `re.findall(r'\d+', s)` is the first maximal
digit run of `s`. -/

theorem digitRunsAux_head_acc : ∀ (cs : List Char) (a : Char) (as : List Char),
    (digitRunsAux cs (a :: as)).head?
      = some ((a :: as).reverse ++ cs.takeWhile Char.isDigit) := by
  intro cs
  induction cs with
  | nil => intro a as; simp [digitRunsAux]
  | cons c cs' ih =>
    intro a as
    by_cases hc : c.isDigit
    · simp only [digitRunsAux, hc, if_pos, List.takeWhile_cons, ih c (a :: as)]
      simp
    · simp only [digitRunsAux, List.takeWhile_cons, hc]
      simp

theorem digitRuns_head : ∀ l : List Char,
    (digitRuns l).head?
      = match (l.dropWhile (fun c => !c.isDigit)).takeWhile Char.isDigit with
        | [] => none
        | r => some r := by
  intro l
  induction l with
  | nil => simp [digitRuns, digitRunsAux]
  | cons c cs ih =>
    by_cases hc : c.isDigit
    · simp only [digitRuns, digitRunsAux, hc, if_pos]
      rw [digitRunsAux_head_acc cs c []]
      simp [List.dropWhile_cons, hc, List.takeWhile_cons]
    · simp only [digitRuns, digitRunsAux, hc] at ih ⊢
      simp only [List.dropWhile_cons, hc]
      simpa using ih

theorem acNewName_eq_firstRun (name : String) (h : upperStartsWithAC name = true) :
    acNewName name = (firstDigitRun name).map (fun r => Nat.repr (digitsVal r)) := by
  unfold acNewName firstDigitRun
  rw [if_pos h]
  have hh := digitRuns_head name.toList
  rcases ht : (name.toList.dropWhile (fun c => !c.isDigit)).takeWhile Char.isDigit
      with _ | ⟨a, as⟩
  · rw [ht] at hh
    simp only at hh
    rcases hd : digitRuns name.toList with _ | ⟨r, rs⟩
    · rw [ht]
      simp
    · rw [hd] at hh; simp at hh
  · rw [ht] at hh
    simp only at hh
    rcases hd : digitRuns name.toList with _ | ⟨r, rs⟩
    · rw [hd] at hh; simp at hh
    · rw [hd] at hh
      simp only [List.head?] at hh
      rw [Option.some.injEq] at hh
      subst hh
      rw [ht]
      simp

theorem acNewName_none_of_no_digits (name : String)
    (h : firstDigitRun name = none) : acNewName name = none := by
  unfold acNewName
  by_cases hac : upperStartsWithAC name = true
  · rw [if_pos hac]
    unfold firstDigitRun at h
    rcases ht : (name.toList.dropWhile (fun c => !c.isDigit)).takeWhile Char.isDigit
        with _ | ⟨a, as⟩
    · have hh := digitRuns_head name.toList
      rw [ht] at hh
      simp only at hh
      rcases hd : digitRuns name.toList with _ | ⟨r, rs⟩
      · simp
      · rw [hd] at hh; simp at hh
    · rw [ht] at h; simp at h
  · rw [if_neg hac]

/-- Shape of a successful Pass A rename: the source name has the `AC`
prefix and the target is the decimal representation of a natural
number. -/
theorem acNewName_shape (name nn : String) (h : acNewName name = some nn) :
    upperStartsWithAC name = true ∧ ∃ k, nn = Nat.repr k := by
  unfold acNewName at h
  by_cases hac : upperStartsWithAC name = true
  · rw [if_pos hac] at h
    rcases hd : digitRuns name.toList with _ | ⟨r, rs⟩
    · rw [hd] at h; simp at h
    · rw [hd] at h
      simp only [Option.some.injEq] at h
      exact ⟨hac, digitsVal r, h.symm⟩
  · rw [if_neg hac] at h; simp at h

/-- A successful Pass A target name never has the `AC` prefix. -/
theorem acNewName_tgt_not_AC (name nn : String) (h : acNewName name = some nn) :
    upperStartsWithAC nn = false := by
  obtain ⟨-, k, hk⟩ := acNewName_shape name nn h
  rw [hk]
  exact repr_not_AC k

/-- A Pass A source and target name are always different: the source
starts with `A` or `a`, the target with a digit. -/
theorem acNewName_src_ne_tgt (s1 nn s2 : String)
    (h : acNewName s1 = some nn) (h2 : upperStartsWithAC s2 = true) : nn ≠ s2 := by
  intro he
  obtain ⟨-, k, hk⟩ := acNewName_shape s1 nn h
  subst he
  rw [hk] at h2
  rw [repr_not_AC k] at h2
  exact absurd h2 (by simp)

/-! Properties of the Pass A rename loop. -/

theorem renameLoop_cons_none (fails : String → Bool) (dn : String)
    (rest names : List String) (h : acNewName dn = none) :
    renameLoop fails (dn :: rest) names = renameLoop fails rest names := by
  simp [renameLoop, h]

theorem renameLoop_cons_coll (fails : String → Bool) (dn nn : String)
    (rest names : List String) (h : acNewName dn = some nn)
    (hex : nn ∈ names) :
    renameLoop fails (dn :: rest) names
      = ((renameLoop fails rest names).1,
         ⟨[], dn, nn, .skippedCollision⟩ :: (renameLoop fails rest names).2) := by
  simp [renameLoop, h, hex]

theorem renameLoop_cons_fail (fails : String → Bool) (dn nn : String)
    (rest names : List String) (h : acNewName dn = some nn)
    (hex : nn ∉ names) (hf : fails dn = true) :
    renameLoop fails (dn :: rest) names
      = ((renameLoop fails rest names).1,
         ⟨[], dn, nn, .failed⟩ :: (renameLoop fails rest names).2) := by
  simp [renameLoop, h, hex, hf]

theorem renameLoop_cons_app (fails : String → Bool) (dn nn : String)
    (rest names : List String) (h : acNewName dn = some nn)
    (hex : nn ∉ names) (hf : fails dn = false) :
    renameLoop fails (dn :: rest) names
      = ((dn, nn) :: (renameLoop fails rest
            (names.map (fun x => if x == dn then nn else x))).1,
         ⟨[], dn, nn, .applied⟩ :: (renameLoop fails rest
            (names.map (fun x => if x == dn then nn else x))).2) := by
  simp [renameLoop, h, hex, hf]

theorem renameLoop_rmap_mem : ∀ (fails : String → Bool) (pending names : List String)
    (o n : String), (o, n) ∈ (renameLoop fails pending names).1 →
    o ∈ pending ∧ acNewName o = some n := by
  intro fails pending
  induction pending with
  | nil => intro names o n h; simp [renameLoop] at h
  | cons dn rest ih =>
    intro names o n h
    rcases hac : acNewName dn with _ | nn
    · rw [renameLoop_cons_none fails dn rest names hac] at h
      obtain ⟨h1, h2⟩ := ih names o n h
      exact ⟨List.mem_cons_of_mem _ h1, h2⟩
    · by_cases hex : nn ∈ names
      · rw [renameLoop_cons_coll fails dn nn rest names hac hex] at h
        obtain ⟨h1, h2⟩ := ih names o n h
        exact ⟨List.mem_cons_of_mem _ h1, h2⟩
      · by_cases hf : fails dn
        · rw [renameLoop_cons_fail fails dn nn rest names hac hex hf] at h
          obtain ⟨h1, h2⟩ := ih names o n h
          exact ⟨List.mem_cons_of_mem _ h1, h2⟩
        · rw [renameLoop_cons_app fails dn nn rest names hac hex
            (Bool.not_eq_true _ ▸ hf)] at h
          simp only [List.mem_cons] at h
          rcases h with h | h
          · rw [Prod.mk.injEq] at h
            obtain ⟨ho, hn⟩ := h
            subst ho; subst hn
            exact ⟨List.mem_cons_self _ _, hac⟩
          · obtain ⟨h1, h2⟩ := ih _ o n h
            exact ⟨List.mem_cons_of_mem _ h1, h2⟩

theorem renameLoop_log_mem : ∀ (fails : String → Bool) (pending names : List String)
    (a : AAction), a ∈ (renameLoop fails pending names).2 →
    a.pref = [] ∧ a.old ∈ pending ∧ acNewName a.old = some a.tgt := by
  intro fails pending
  induction pending with
  | nil => intro names a h; simp [renameLoop] at h
  | cons dn rest ih =>
    intro names a h
    rcases hac : acNewName dn with _ | nn
    · rw [renameLoop_cons_none fails dn rest names hac] at h
      obtain ⟨h1, h2, h3⟩ := ih names a h
      exact ⟨h1, List.mem_cons_of_mem _ h2, h3⟩
    · by_cases hex : nn ∈ names
      · rw [renameLoop_cons_coll fails dn nn rest names hac hex] at h
        rcases List.mem_cons.mp h with h | h
        · subst h; exact ⟨rfl, List.mem_cons_self _ _, hac⟩
        · obtain ⟨h1, h2, h3⟩ := ih names a h
          exact ⟨h1, List.mem_cons_of_mem _ h2, h3⟩
      · by_cases hf : fails dn
        · rw [renameLoop_cons_fail fails dn nn rest names hac hex hf] at h
          rcases List.mem_cons.mp h with h | h
          · subst h; exact ⟨rfl, List.mem_cons_self _ _, hac⟩
          · obtain ⟨h1, h2, h3⟩ := ih names a h
            exact ⟨h1, List.mem_cons_of_mem _ h2, h3⟩
        · rw [renameLoop_cons_app fails dn nn rest names hac hex
            (Bool.not_eq_true _ ▸ hf)] at h
          rcases List.mem_cons.mp h with h | h
          · subst h; exact ⟨rfl, List.mem_cons_self _ _, hac⟩
          · obtain ⟨h1, h2, h3⟩ := ih _ a h
            exact ⟨h1, List.mem_cons_of_mem _ h2, h3⟩

theorem renameLoop_log_olds_sublist (fails : String → Bool) :
    ∀ (pending names : List String),
    ((renameLoop fails pending names).2.map (fun a => a.old)).Sublist pending := by
  intro pending
  induction pending with
  | nil => intro names; simp [renameLoop]
  | cons dn rest ih =>
    intro names
    rcases hac : acNewName dn with _ | nn
    · rw [renameLoop_cons_none fails dn rest names hac]
      exact (ih names).cons dn
    · by_cases hex : nn ∈ names
      · rw [renameLoop_cons_coll fails dn nn rest names hac hex]
        exact (ih names).cons₂ dn
      · by_cases hf : fails dn
        · rw [renameLoop_cons_fail fails dn nn rest names hac hex hf]
          exact (ih names).cons₂ dn
        · rw [renameLoop_cons_app fails dn nn rest names hac hex
            (Bool.not_eq_true _ ▸ hf)]
          exact (ih _).cons₂ dn

theorem renameLoop_rmap_olds_sublist (fails : String → Bool) :
    ∀ (pending names : List String),
    ((renameLoop fails pending names).1.map (fun r => r.1)).Sublist pending := by
  intro pending
  induction pending with
  | nil => intro names; simp [renameLoop]
  | cons dn rest ih =>
    intro names
    rcases hac : acNewName dn with _ | nn
    · rw [renameLoop_cons_none fails dn rest names hac]
      exact (ih names).cons dn
    · by_cases hex : nn ∈ names
      · rw [renameLoop_cons_coll fails dn nn rest names hac hex]
        exact (ih names).cons dn
      · by_cases hf : fails dn
        · rw [renameLoop_cons_fail fails dn nn rest names hac hex hf]
          exact (ih names).cons dn
        · rw [renameLoop_cons_app fails dn nn rest names hac hex
            (Bool.not_eq_true _ ▸ hf)]
          exact (ih _).cons₂ dn

/-- A successful rename appears in the map exactly when its `Applied`
action appears in the log. -/
theorem renameLoop_rmap_iff_applied (fails : String → Bool) :
    ∀ (pending names : List String) (o n : String),
    (o, n) ∈ (renameLoop fails pending names).1
      ↔ (⟨[], o, n, .applied⟩ : AAction) ∈ (renameLoop fails pending names).2 := by
  intro pending
  induction pending with
  | nil => intro names o n; simp [renameLoop]
  | cons dn rest ih =>
    intro names o n
    rcases hac : acNewName dn with _ | nn
    · rw [renameLoop_cons_none fails dn rest names hac]
      exact ih names o n
    · by_cases hex : nn ∈ names
      · rw [renameLoop_cons_coll fails dn nn rest names hac hex]
        simp only [List.mem_cons]
        rw [ih names o n]
        constructor
        · exact Or.inr
        · rintro (h | h)
          · exact absurd (congrArg AAction.status h) (by simp)
          · exact h
      · by_cases hf : fails dn
        · rw [renameLoop_cons_fail fails dn nn rest names hac hex hf]
          simp only [List.mem_cons]
          rw [ih names o n]
          constructor
          · exact Or.inr
          · rintro (h | h)
            · exact absurd (congrArg AAction.status h) (by simp)
            · exact h
        · rw [renameLoop_cons_app fails dn nn rest names hac hex
            (Bool.not_eq_true _ ▸ hf)]
          simp only [List.mem_cons]
          rw [ih _ o n]
          constructor
          · rintro (h | h)
            · rw [Prod.mk.injEq] at h
              exact Or.inl (by rw [h.1, h.2])
            · exact Or.inr h
          · rintro (h | h)
            · refine Or.inl ?_
              have h1 := congrArg AAction.old h
              have h2 := congrArg AAction.tgt h
              simp at h1 h2
              rw [h1, h2]
            · exact Or.inr h

/-- Every eligible pending entry is processed: it receives exactly one
log action, whatever the failure oracle says about it or about the
other entries. -/
theorem renameLoop_eligible (fails : String → Bool) :
    ∀ (pending names : List String) (o n : String), o ∈ pending →
    acNewName o = some n →
    ∃ st, (⟨[], o, n, st⟩ : AAction) ∈ (renameLoop fails pending names).2 := by
  intro pending
  induction pending with
  | nil => intro names o n h; simp at h
  | cons dn rest ih =>
    intro names o n hmem hacn
    rcases List.mem_cons.mp hmem with he | he
    · subst he
      by_cases hex : n ∈ names
      · rw [renameLoop_cons_coll fails o n rest names hacn hex]
        exact ⟨.skippedCollision, List.mem_cons_self _ _⟩
      · by_cases hf : fails o
        · rw [renameLoop_cons_fail fails o n rest names hacn hex hf]
          exact ⟨.failed, List.mem_cons_self _ _⟩
        · rw [renameLoop_cons_app fails o n rest names hacn hex
            (Bool.not_eq_true _ ▸ hf)]
          exact ⟨.applied, List.mem_cons_self _ _⟩
    · rcases hac : acNewName dn with _ | nn
      · rw [renameLoop_cons_none fails dn rest names hac]
        exact ih names o n he hacn
      · by_cases hex : nn ∈ names
        · rw [renameLoop_cons_coll fails dn nn rest names hac hex]
          obtain ⟨st, hst⟩ := ih names o n he hacn
          exact ⟨st, List.mem_cons_of_mem _ hst⟩
        · by_cases hf : fails dn
          · rw [renameLoop_cons_fail fails dn nn rest names hac hex hf]
            obtain ⟨st, hst⟩ := ih names o n he hacn
            exact ⟨st, List.mem_cons_of_mem _ hst⟩
          · rw [renameLoop_cons_app fails dn nn rest names hac hex
              (Bool.not_eq_true _ ▸ hf)]
            obtain ⟨st, hst⟩ := ih _ o n he hacn
            exact ⟨st, List.mem_cons_of_mem _ hst⟩

/-- A successful rename target never collides with a name that was in
the parent directory when the loop started. -/
theorem renameLoop_tgt_fresh (fails : String → Bool) :
    ∀ (pending names : List String) (o n : String),
    (o, n) ∈ (renameLoop fails pending names).1 → n ∉ names := by
  intro pending
  induction pending with
  | nil => intro names o n h; simp [renameLoop] at h
  | cons dn rest ih =>
    intro names o n h
    rcases hac : acNewName dn with _ | nn
    · rw [renameLoop_cons_none fails dn rest names hac] at h
      exact ih names o n h
    · by_cases hex : nn ∈ names
      · rw [renameLoop_cons_coll fails dn nn rest names hac hex] at h
        exact ih names o n h
      · by_cases hf : fails dn
        · rw [renameLoop_cons_fail fails dn nn rest names hac hex hf] at h
          exact ih names o n h
        · rw [renameLoop_cons_app fails dn nn rest names hac hex
            (Bool.not_eq_true _ ▸ hf)] at h
          rcases List.mem_cons.mp h with he | he
          · rw [Prod.mk.injEq] at he
            exact he.2 ▸ hex
          · intro hmem
            have hfr := ih _ o n he
            obtain ⟨-, hsh⟩ := renameLoop_rmap_mem fails _ _ o n he
            have hnAC : upperStartsWithAC n = false := acNewName_tgt_not_AC o n hsh
            have hdnAC : upperStartsWithAC dn = true := (acNewName_shape dn nn hac).1
            have hne : n ≠ dn := by
              intro hdn; rw [hdn, hdnAC] at hnAC; exact absurd hnAC (by simp)
            apply hfr
            refine List.mem_map.mpr ⟨n, hmem, ?_⟩
            simp [hne]

/-- The targets of the successful renames of one loop run are pairwise
distinct. -/
theorem renameLoop_tgts_nodup (fails : String → Bool) :
    ∀ (pending names : List String), pending.Nodup → (∀ x ∈ pending, x ∈ names) →
    ((renameLoop fails pending names).1.map (fun r => r.2)).Nodup := by
  intro pending
  induction pending with
  | nil => intro names _ _; simp [renameLoop]
  | cons dn rest ih =>
    intro names hnd hsub
    have hnd' : rest.Nodup := (List.nodup_cons.mp hnd).2
    have hdn : dn ∉ rest := (List.nodup_cons.mp hnd).1
    rcases hac : acNewName dn with _ | nn
    · rw [renameLoop_cons_none fails dn rest names hac]
      exact ih names hnd' (fun x hx => hsub x (List.mem_cons_of_mem _ hx))
    · by_cases hex : nn ∈ names
      · rw [renameLoop_cons_coll fails dn nn rest names hac hex]
        exact ih names hnd' (fun x hx => hsub x (List.mem_cons_of_mem _ hx))
      · by_cases hf : fails dn
        · rw [renameLoop_cons_fail fails dn nn rest names hac hex hf]
          exact ih names hnd' (fun x hx => hsub x (List.mem_cons_of_mem _ hx))
        · rw [renameLoop_cons_app fails dn nn rest names hac hex
            (Bool.not_eq_true _ ▸ hf)]
          simp only [List.map_cons, List.nodup_cons]
          constructor
          · intro hmem
            obtain ⟨⟨o', n'⟩, hr, he⟩ := List.mem_map.mp hmem
            simp only at he
            rw [he] at hr
            have := renameLoop_tgt_fresh fails rest _ o' nn hr
            apply this
            refine List.mem_map.mpr ⟨dn, hsub dn (List.mem_cons_self _ _), ?_⟩
            simp
          · apply ih
            · exact hnd'
            · intro x hx
              refine List.mem_map.mpr ⟨x, hsub x (List.mem_cons_of_mem _ hx), ?_⟩
              have : x ≠ dn := fun he => hdn (he ▸ hx)
              simp [this]

/-- If the computed target name is present in the parent directory and
is itself not `AC`-prefixed (so no iteration of the loop can rename it
away), the rename of `dn` is skipped with a collision. -/
theorem renameLoop_coll_of_present (fails : String → Bool) :
    ∀ (pending names : List String) (dn nn : String), dn ∈ pending →
    acNewName dn = some nn → nn ∈ names → upperStartsWithAC nn = false →
    (⟨[], dn, nn, .skippedCollision⟩ : AAction) ∈ (renameLoop fails pending names).2 := by
  intro pending
  induction pending with
  | nil => intro names dn nn h; simp at h
  | cons d rest ih =>
    intro names dn nn hmem hacn hex hnac
    rcases List.mem_cons.mp hmem with he | he
    · subst he
      rw [renameLoop_cons_coll fails dn nn rest names hacn hex]
      exact List.mem_cons_self _ _
    · rcases hac : acNewName d with _ | nd
      · rw [renameLoop_cons_none fails d rest names hac]
        exact ih names dn nn he hacn hex hnac
      · by_cases hexd : nd ∈ names
        · rw [renameLoop_cons_coll fails d nd rest names hac hexd]
          exact List.mem_cons_of_mem _ (ih names dn nn he hacn hex hnac)
        · by_cases hf : fails d
          · rw [renameLoop_cons_fail fails d nd rest names hac hexd hf]
            exact List.mem_cons_of_mem _ (ih names dn nn he hacn hex hnac)
          · rw [renameLoop_cons_app fails d nd rest names hac hexd
              (Bool.not_eq_true _ ▸ hf)]
            refine List.mem_cons_of_mem _ (ih _ dn nn he hacn ?_ hnac)
            have hdAC : upperStartsWithAC d = true := (acNewName_shape d nd hac).1
            have hne : nn ≠ d := by
              intro hdn; rw [hdn, hdAC] at hnac; exact absurd hnac (by simp)
            refine List.mem_map.mpr ⟨nn, hex, ?_⟩
            simp [hne]

theorem renameLoop_log_olds_nodup (fails : String → Bool)
    (pending names : List String) (hnd : pending.Nodup) :
    ((renameLoop fails pending names).2.map (fun a => a.old)).Nodup :=
  (renameLoop_log_olds_sublist fails pending names).nodup hnd

theorem renameLoop_rmap_olds_nodup (fails : String → Bool)
    (pending names : List String) (hnd : pending.Nodup) :
    ((renameLoop fails pending names).1.map (fun r => r.1)).Nodup :=
  (renameLoop_rmap_olds_sublist fails pending names).nodup hnd

/-- A directory whose action was logged with a non-`Applied` status is
absent from the rename map: it kept its name. -/
theorem renameLoop_not_renamed_of_status (fails : String → Bool)
    (pending names : List String) (hnd : pending.Nodup) (a : AAction)
    (ha : a ∈ (renameLoop fails pending names).2) (hst : a.status ≠ .applied) :
    ∀ n, (a.old, n) ∉ (renameLoop fails pending names).1 := by
  intro n hmem
  have happ := (renameLoop_rmap_iff_applied fails pending names a.old n).mp hmem
  have hinj := List.inj_on_of_nodup_map
    (renameLoop_log_olds_nodup fails pending names hnd)
  have := hinj ha happ rfl
  exact hst (congrArg AAction.status this)

/-! Unfolding the mutual Pass A recursion. -/

/-- The subdirectory-name snapshot `list(dirs)` of a listing. -/
def dirNamesOf (ch : List (String × FSNode)) : List String :=
  (ch.filter (fun c => c.2.isDir)).map (fun c => c.1)

/-- The names of a listing. -/
def keysOf (ch : List (String × FSNode)) : List String :=
  ch.map (fun c => c.1)

/-- The successful renames of one Pass A level. -/
def levelRenames (fails : List String → Bool) (ch : List (String × FSNode)) :
    List (String × String) :=
  (renameLoop (fun n => fails [n]) (dirNamesOf ch) (keysOf ch)).1

/-- The log of one Pass A level. -/
def levelLog (fails : List String → Bool) (ch : List (String × FSNode)) :
    List AAction :=
  (renameLoop (fun n => fails [n]) (dirNamesOf ch) (keysOf ch)).2

theorem passANode_file (fails : List String → Bool) (b : List Nat) :
    passANode fails (.file b) = ⟨.file b, [], []⟩ := by
  simp [passANode]

theorem passANode_dir (fails : List String → Bool) (ch : List (String × FSNode)) :
    passANode fails (.dir ch)
      = ⟨.dir ((passAList fails (levelRenames fails ch) ch).map (fun s => s.1)),
         (levelRenames fails ch).map (fun r => ([], r.1, r.2))
           ++ ((passAList fails (levelRenames fails ch) ch).map (fun s => s.2.1)).flatten,
         levelLog fails ch
           ++ ((passAList fails (levelRenames fails ch) ch).map (fun s => s.2.2)).flatten⟩ := by
  simp [passANode, levelRenames, levelLog, dirNamesOf, keysOf]

theorem passAList_nil (fails : List String → Bool) (rs : List (String × String)) :
    passAList fails rs [] = [] := by
  simp [passAList]

theorem passAList_cons_renamed (fails : List String → Bool)
    (rs : List (String × String)) (c : String × FSNode)
    (cs : List (String × FSNode)) (r : String × String)
    (h : rs.find? (fun r => r.1 == c.1) = some r) :
    passAList fails rs (c :: cs) = ((r.2, c.2), [], []) :: passAList fails rs cs := by
  simp [passAList, h]

theorem passAList_cons_dir (fails : List String → Bool)
    (rs : List (String × String)) (c : String × FSNode)
    (cs : List (String × FSNode))
    (h : rs.find? (fun r => r.1 == c.1) = none) (hd : c.2.isDir = true) :
    passAList fails rs (c :: cs)
      = ((c.1, (passANode (fun pp => fails (c.1 :: pp)) c.2).tree),
         (passANode (fun pp => fails (c.1 :: pp)) c.2).rmap.map
           (fun m => (c.1 :: m.1, m.2)),
         (passANode (fun pp => fails (c.1 :: pp)) c.2).log.map
           (fun a => ⟨c.1 :: a.pref, a.old, a.tgt, a.status⟩))
        :: passAList fails rs cs := by
  simp [passAList, h, hd]

theorem passAList_cons_keep (fails : List String → Bool)
    (rs : List (String × String)) (c : String × FSNode)
    (cs : List (String × FSNode))
    (h : rs.find? (fun r => r.1 == c.1) = none) (hd : c.2.isDir = false) :
    passAList fails rs (c :: cs) = ((c.1, c.2), [], []) :: passAList fails rs cs := by
  simp [passAList, h, hd]

/-- Structural induction over trees through the nested lists. -/
theorem FSNode.inductionOn {motive : FSNode → Prop}
    (hf : ∀ b, motive (.file b))
    (hd : ∀ ch, (∀ c ∈ ch, motive c.2) → motive (.dir ch)) : ∀ t, motive t := by
  have key : ∀ (n : Nat) (t : FSNode), sizeOf t ≤ n → motive t := by
    intro n
    induction n with
    | zero =>
      intro t h
      cases t with
      | file b => simp at h
      | dir ch => simp at h
    | succ n ih =>
      intro t h
      cases t with
      | file b => exact hf b
      | dir ch =>
        apply hd
        intro c hc
        apply ih
        have hm : sizeOf c < sizeOf ch := List.sizeOf_lt_of_mem hc
        have hc2 : sizeOf c.2 < sizeOf c := by
          cases c with
          | mk a b => simp
        simp at h
        omega
  exact fun t => key (sizeOf t) t (le_refl _)

theorem nodupKeys_iff (ch : List (String × FSNode)) :
    nodupKeys ch = true ↔ (keysOf ch).Nodup := by
  induction ch with
  | nil => simp [nodupKeys, keysOf]
  | cons c cs ih =>
    simp only [nodupKeys, keysOf, List.map_cons, List.nodup_cons, Bool.and_eq_true,
      Bool.not_eq_true', List.any_eq_false, List.mem_map]
    rw [← keysOf, ← ih]
    constructor
    · rintro ⟨h1, h2⟩
      refine ⟨?_, h2⟩
      rintro ⟨d, hd, he⟩
      have := h1 d hd
      simp [he] at this
    · rintro ⟨h1, h2⟩
      refine ⟨?_, h2⟩
      intro d hd
      by_contra hbe
      apply h1
      refine ⟨d, hd, ?_⟩
      simpa using hbe

theorem wfTree_dir (ch : List (String × FSNode)) :
    wfTree (.dir ch) = true ↔ nodupKeys ch = true ∧ wfChildren ch = true := by
  simp [wfTree]

theorem wfChildren_mem (ch : List (String × FSNode)) (c : String × FSNode)
    (h : wfChildren ch = true) (hm : c ∈ ch) : wfTree c.2 = true := by
  induction ch with
  | nil => simp at hm
  | cons d ds ih =>
    simp only [wfChildren, Bool.and_eq_true] at h
    rcases List.mem_cons.mp hm with he | he
    · subst he; exact h.1
    · exact ih h.2 he

/-- A child whose name the level renames do not mention keeps its name
in the Pass A output listing. -/
theorem passAList_mem_keep (fails : List String → Bool)
    (rs : List (String × String)) :
    ∀ (cs : List (String × FSNode)) (c : String × FSNode), c ∈ cs →
    rs.find? (fun r => r.1 == c.1) = none →
    ∃ t2, (c.1, t2) ∈ (passAList fails rs cs).map (fun s => s.1) := by
  intro cs
  induction cs with
  | nil => intro c h; simp at h
  | cons d ds ih =>
    intro c hm hfind
    rcases List.mem_cons.mp hm with he | he
    · subst he
      by_cases hd : c.2.isDir
      · rw [passAList_cons_dir fails rs c ds hfind hd]
        exact ⟨(passANode (fun pp => fails (c.1 :: pp)) c.2).tree, by simp⟩
      · rw [passAList_cons_keep fails rs c ds hfind (Bool.not_eq_true _ ▸ hd)]
        exact ⟨c.2, by simp⟩
    · obtain ⟨t2, ht2⟩ := ih c he hfind
      rcases hfd : rs.find? (fun r => r.1 == d.1) with _ | r
      · by_cases hd : d.2.isDir
        · rw [passAList_cons_dir fails rs d ds hfd hd]
          exact ⟨t2, by simp only [List.map_cons, List.mem_cons]; exact Or.inr ht2⟩
        · rw [passAList_cons_keep fails rs d ds hfd (Bool.not_eq_true _ ▸ hd)]
          exact ⟨t2, by simp only [List.map_cons, List.mem_cons]; exact Or.inr ht2⟩
      · rw [passAList_cons_renamed fails rs d ds r hfd]
        exact ⟨t2, by simp only [List.map_cons, List.mem_cons]; exact Or.inr ht2⟩

/-- If a name has no eligible rename, the level renames do not mention
it. -/
theorem find?_none_of_acNone (fails : List String → Bool)
    (ch : List (String × FSNode)) (x : String) (hx : acNewName x = none) :
    (levelRenames fails ch).find? (fun r => r.1 == x) = none := by
  rw [List.find?_eq_none]
  intro r hr
  obtain ⟨-, hsh⟩ := renameLoop_rmap_mem _ _ _ r.1 r.2 (by simpa using hr)
  simp only [beq_eq_false_iff_ne, ne_eq, Bool.not_eq_true]
  intro he
  rw [he, hx] at hsh
  simp at hsh

/-- C1: for a directory name with the (case-insensitive) `AC` prefix,
Pass A computes the new name as the decimal string of the first maximal
digit run interpreted as an integer (leading zeros stripped); if the
name has no digit run, the directory keeps its name in the Pass A
output tree. -/
theorem C1_passA_new_name (name : String) (hAC : upperStartsWithAC name = true) :
    acNewName name = (firstDigitRun name).map (fun r => Nat.repr (digitsVal r))
    ∧ (firstDigitRun name = none →
        ∀ (fails : List String → Bool) (ch sub : List (String × FSNode)),
        (name, FSNode.dir sub) ∈ ch →
        ∃ ch2 t2, (passANode fails (.dir ch)).tree = .dir ch2
          ∧ (name, t2) ∈ ch2) := by
  refine ⟨acNewName_eq_firstRun name hAC, ?_⟩
  intro hnone fails ch sub hmem
  rw [passANode_dir]
  have hacn : acNewName name = none := acNewName_none_of_no_digits name hnone
  obtain ⟨t2, ht2⟩ := passAList_mem_keep fails (levelRenames fails ch) ch
    (name, FSNode.dir sub) hmem (find?_none_of_acNone fails ch name hacn)
  exact ⟨_, t2, rfl, ht2⟩

/-- Witness for C1 at concrete inputs: `AC001` is mapped to `1`, and a
digit-free `ACx` folder keeps its name. -/
theorem C1_witness :
    (upperStartsWithAC "AC001" = true
      ∧ acNewName "AC001" = (firstDigitRun "AC001").map (fun r => Nat.repr (digitsVal r))
      ∧ acNewName "AC001" = some "1")
    ∧ ∃ ch2 t2, (passANode noFail (.dir [("ACx", FSNode.dir [])])).tree = .dir ch2
        ∧ ("ACx", t2) ∈ ch2 :=
  ⟨⟨by decide, (C1_passA_new_name "AC001" (by decide)).1, by decide⟩,
   (C1_passA_new_name "ACx" (by decide)).2 (by decide) noFail _ []
     (by simp)⟩

/-! Idempotence of the per-name rules (claim C6 groundwork). -/

theorem matchPdf_none_of_underscore (str : String) (a b c : Char) (L : List Char)
    (hl : str.toList = a :: b :: c :: '_' :: L) : matchPdfName str = none := by
  unfold matchPdfName
  rw [hl]
  rcases L with _ | ⟨x4, _ | ⟨x5, _ | ⟨x6, _ | ⟨x7, _ | ⟨x8, _ | ⟨x9, _ | ⟨x10,
    _ | ⟨x11, _ | ⟨x12, _ | ⟨x13, _ | ⟨x14, _ | ⟨x15, rest⟩⟩⟩⟩⟩⟩⟩⟩⟩⟩⟩⟩ <;>
    simp [matchPdfName]

theorem matchPdfName_some_shape (s : String) (p1 : String) (n2 n3 : Nat)
    (h : matchPdfName s = some (p1, n2, n3)) : ∃ a b c, p1 = String.mk [a, b, c] := by
  unfold matchPdfName at h
  split at h
  · split at h
    · rw [Option.some.injEq] at h
      have := congrArg Prod.fst h
      simp only at this
      exact ⟨_, _, _, this.symm⟩
    · simp at h
  · simp at h

/-- Any filename Pass B produces fails the Pass B pattern: its fourth
character is `_` where the pattern requires `A`. -/
theorem pdfTarget_out_no_match (s nn : String) (h : pdfTarget s = some nn) :
    matchPdfName nn = none := by
  unfold pdfTarget at h
  rcases hm : matchPdfName s with _ | g
  · rw [hm] at h; simp at h
  · rw [hm] at h
    simp only [Option.map, Option.bind, Option.some.injEq] at h
    obtain ⟨a, b, c, hp⟩ := matchPdfName_some_shape s g.1 g.2.1 g.2.2 hm
    apply matchPdf_none_of_underscore nn a b c
      ((Nat.repr g.2.1).toList ++ '_' :: (Nat.repr g.2.2).toList ++ ['.', 'p', 'd', 'f'])
    rw [← h, hp]
    show (String.mk [a, b, c] ++ "_" ++ Nat.repr g.2.1 ++ "_"
      ++ Nat.repr g.2.2 ++ ".pdf").data = _
    simp only [String.data_append, String.toList]
    show [a, b, c] ++ ['_'] ++ (Nat.repr g.2.1).data ++ ['_']
      ++ (Nat.repr g.2.2).data ++ ['.', 'p', 'd', 'f'] = _
    simp

/-- C6: the pipeline is idempotent on its own output names: a bare
integer folder name produced by Pass A has no `AC` prefix, so Pass A
skips it on a re-run; and a filename produced by Pass B no longer
matches the file pattern, so Pass B skips it on a re-run. -/
theorem C6_idempotent :
    (∀ k : Nat, upperStartsWithAC (Nat.repr k) = false ∧ acNewName (Nat.repr k) = none)
    ∧ (∀ s nn : String, pdfTarget s = some nn →
        matchPdfName nn = none ∧ pdfTarget nn = none) := by
  constructor
  · intro k
    exact ⟨repr_not_AC k, acNewName_repr k⟩
  · intro s nn h
    have hm := pdfTarget_out_no_match s nn h
    refine ⟨hm, ?_⟩
    unfold pdfTarget
    rw [hm]
    rfl

/-- Witness for C6: renaming `AC001` gives `1`, which is skipped on a
re-run, and `S03A0010095.pdf` gives `S03_1_95.pdf`, which no longer
matches. -/
theorem C6_witness :
    (upperStartsWithAC (Nat.repr 1) = false ∧ acNewName (Nat.repr 1) = none)
    ∧ (matchPdfName "S03_1_95.pdf" = none ∧ pdfTarget "S03_1_95.pdf" = none) :=
  ⟨C6_idempotent.1 1,
   C6_idempotent.2 "S03A0010095.pdf" "S03_1_95.pdf" (by decide)⟩

/-! Properties of the Pass B file loop. -/

theorem toUpper_S : 'S'.toUpper = 'S' := by decide

theorem toUpper_s : 's'.toUpper = 'S' := by decide

theorem passBLoop_nil (fails : String → Bool) (cur : List (String × FSNode)) :
    passBLoop fails [] cur = (cur, []) := by
  simp [passBLoop]

theorem passBLoop_cons_nopdf (fails : String → Bool) (fn : String)
    (rest : List String) (cur : List (String × FSNode))
    (h : lowerEndsWithPdf fn = false) :
    passBLoop fails (fn :: rest) cur = passBLoop fails rest cur := by
  simp [passBLoop, h]

theorem passBLoop_cons_nomatch (fails : String → Bool) (fn : String)
    (rest : List String) (cur : List (String × FSNode))
    (h : lowerEndsWithPdf fn = true) (hm : pdfTarget fn = none) :
    passBLoop fails (fn :: rest) cur
      = ((passBLoop fails rest cur).1,
         ⟨fn, none, .skippedNoMatch⟩ :: (passBLoop fails rest cur).2) := by
  simp [passBLoop, h, hm]

theorem passBLoop_cons_app (fails : String → Bool) (fn nn : String)
    (rest : List String) (cur : List (String × FSNode))
    (h : lowerEndsWithPdf fn = true) (hm : pdfTarget fn = some nn)
    (hc : ((cur.find? (fun c => c.1 == fn)).isSome && !fails fn) = true) :
    passBLoop fails (fn :: rest) cur
      = ((passBLoop fails rest (renameEntry cur fn nn)).1,
         ⟨fn, some nn, .applied⟩ :: (passBLoop fails rest (renameEntry cur fn nn)).2) := by
  simp only [passBLoop, h, hm, hc]
  simp

theorem passBLoop_cons_fail (fails : String → Bool) (fn nn : String)
    (rest : List String) (cur : List (String × FSNode))
    (h : lowerEndsWithPdf fn = true) (hm : pdfTarget fn = some nn)
    (hc : ((cur.find? (fun c => c.1 == fn)).isSome && !fails fn) = false) :
    passBLoop fails (fn :: rest) cur
      = ((passBLoop fails rest cur).1,
         ⟨fn, some nn, .failed⟩ :: (passBLoop fails rest cur).2) := by
  simp only [passBLoop, h, hm, hc]
  simp

/-- A rename that touches neither the name of an entry nor its target
keeps the entry intact. -/
theorem renameEntry_keep (cur : List (String × FSNode)) (old nw fn : String)
    (x : FSNode) (hmem : (fn, x) ∈ cur) (h1 : fn ≠ old) (h2 : fn ≠ nw) :
    (fn, x) ∈ renameEntry cur old nw := by
  unfold renameEntry
  rcases hfd : cur.find? (fun c => c.1 == old) with _ | e
  · simp only [hfd]
    exact hmem
  · simp only [hfd]
    have hrest : (fn, x) ∈ cur.filter (fun c => c.1 != old) := by
      rw [List.mem_filter]
      exact ⟨hmem, by simp [h1]⟩
    by_cases hany : ((cur.filter (fun c => c.1 != old)).any (fun c => c.1 == nw)) = true
    · rw [if_pos hany]
      refine List.mem_map.mpr ⟨(fn, x), hrest, ?_⟩
      simp [h2]
    · rw [if_neg hany]
      exact List.mem_append_left _ hrest

/-- A file whose name does not match the pattern, and onto which no
listed file renames, is left untouched by the folder loop. -/
theorem passBLoop_keep (fails : String → Bool) :
    ∀ (pending : List String) (cur : List (String × FSNode)) (fn : String)
    (x : FSNode), (fn, x) ∈ cur → pdfTarget fn = none →
    (∀ y ∈ pending, pdfTarget y ≠ some fn) →
    (fn, x) ∈ (passBLoop fails pending cur).1 := by
  intro pending
  induction pending with
  | nil => intro cur fn x hmem _ _; rw [passBLoop_nil]; exact hmem
  | cons y rest ih =>
    intro cur fn x hmem hnone htgt
    have htgt' : ∀ z ∈ rest, pdfTarget z ≠ some fn :=
      fun z hz => htgt z (List.mem_cons_of_mem _ hz)
    by_cases hpdf : lowerEndsWithPdf y
    · rcases hm : pdfTarget y with _ | nn
      · rw [passBLoop_cons_nomatch fails y rest cur hpdf hm]
        exact ih cur fn x hmem hnone htgt'
      · by_cases hc : ((cur.find? (fun c => c.1 == y)).isSome && !fails y) = true
        · rw [passBLoop_cons_app fails y nn rest cur hpdf hm hc]
          apply ih _ fn x _ hnone htgt'
          apply renameEntry_keep cur y nn fn x hmem
          · intro he
            rw [← he, hnone] at hm
            exact Option.noConfusion hm
          · intro he
            exact htgt y (List.mem_cons_self _ _) (he ▸ hm)
        · rw [passBLoop_cons_fail fails y nn rest cur hpdf hm
            (Bool.not_eq_true _ ▸ hc)]
          exact ih cur fn x hmem hnone htgt'
    · rw [passBLoop_cons_nopdf fails y rest cur (Bool.not_eq_true _ ▸ hpdf)]
      exact ih cur fn x hmem hnone htgt'

/-- C2: a filename matching `S<2 digits>A<3 digits><4 digits>.pdf`
case-insensitively is renamed to the uppercased S-token and the two
numeric groups as integers, joined by underscores with the `.pdf`
extension; a `.pdf` filename that does not match the pattern (and onto
which no sibling file renames) is left untouched by the folder loop. -/
theorem C2_passB_file_rule
    (c0 ca cp cd cf d1 d2 e1 e2 e3 f1 f2 f3 f4 : Char)
    (h0 : c0 = 'S' ∨ c0 = 's') (hA : ca = 'A' ∨ ca = 'a')
    (hp : cp = 'P' ∨ cp = 'p') (hdd : cd = 'D' ∨ cd = 'd') (hff : cf = 'F' ∨ cf = 'f')
    (hd1 : d1.isDigit = true) (hd2 : d2.isDigit = true) (he1 : e1.isDigit = true)
    (he2 : e2.isDigit = true) (he3 : e3.isDigit = true)
    (hf1 : f1.isDigit = true) (hf2 : f2.isDigit = true) (hf3 : f3.isDigit = true)
    (hf4 : f4.isDigit = true) :
    pdfTarget (String.mk [c0, d1, d2, ca, e1, e2, e3, f1, f2, f3, f4, '.', cp, cd, cf])
      = some (String.mk ['S', d1, d2] ++ "_" ++ Nat.repr (digitsVal [e1, e2, e3])
          ++ "_" ++ Nat.repr (digitsVal [f1, f2, f3, f4]) ++ ".pdf")
    ∧ (∀ (fails : String → Bool) (ch : List (String × FSNode)) (fn : String) (x : FSNode),
        lowerEndsWithPdf fn = true → matchPdfName fn = none → (fn, x) ∈ ch →
        (∀ c ∈ ch, pdfTarget c.1 ≠ some fn) →
        (fn, x) ∈ (passBFolder fails ch).1) := by
  constructor
  · have hm : matchPdfName
        (String.mk [c0, d1, d2, ca, e1, e2, e3, f1, f2, f3, f4, '.', cp, cd, cf])
        = some (String.mk [c0.toUpper, d1.toUpper, d2.toUpper],
            digitsVal [e1, e2, e3], digitsVal [f1, f2, f3, f4]) := by
      unfold matchPdfName
      show (match [c0, d1, d2, ca, e1, e2, e3, f1, f2, f3, f4, '.', cp, cd, cf] with
        | [c0, c1, c2, c3, c4, c5, c6, c7, c8, c9, c10, c11, c12, c13, c14] =>
          if (c0 == 'S' || c0 == 's') && c1.isDigit && c2.isDigit
              && (c3 == 'A' || c3 == 'a') && c4.isDigit && c5.isDigit && c6.isDigit
              && c7.isDigit && c8.isDigit && c9.isDigit && c10.isDigit
              && c11 == '.' && (c12 == 'P' || c12 == 'p')
              && (c13 == 'D' || c13 == 'd') && (c14 == 'F' || c14 == 'f') then
            some (String.mk [c0.toUpper, c1.toUpper, c2.toUpper],
                  digitsVal [c4, c5, c6], digitsVal [c7, c8, c9, c10])
          else none
        | _ => none) = _
      rcases h0 with h0 | h0 <;> rcases hA with hA | hA <;>
        rcases hp with hp | hp <;> rcases hdd with hdd | hdd <;>
        rcases hff with hff | hff <;>
        subst h0 <;> subst hA <;> subst hp <;> subst hdd <;> subst hff <;>
        simp [hd1, hd2, he1, he2, he3, hf1, hf2, hf3, hf4]
    unfold pdfTarget
    rw [hm]
    rcases h0 with h0 | h0 <;> subst h0 <;>
      simp [toUpper_S, toUpper_s, digit_toUpper d1 hd1, digit_toUpper d2 hd2]
  · intro fails ch fn x hpdf hnm hmem htgt
    unfold passBFolder
    apply passBLoop_keep fails (keysOf ch) ch fn x hmem
    · unfold pdfTarget
      rw [hnm]
      rfl
    · intro y hy
      obtain ⟨c, hc, hcy⟩ := List.mem_map.mp hy
      exact hcy ▸ htgt c hc

/-- Witness for C2: `S03A0010095.pdf` maps to `S03_1_95.pdf`, and the
non-matching `S3A0010095.pdf` is left untouched. -/
theorem C2_witness :
    pdfTarget (String.mk ['S', '0', '3', 'A', '0', '0', '1', '0', '0', '9', '5',
        '.', 'p', 'd', 'f'])
      = some (String.mk ['S', '0', '3'] ++ "_" ++ Nat.repr (digitsVal ['0', '0', '1'])
          ++ "_" ++ Nat.repr (digitsVal ['0', '0', '9', '5']) ++ ".pdf")
    ∧ ("S3A0010095.pdf", FSNode.file [1])
        ∈ (passBFolder (fun _ => false) [("S3A0010095.pdf", FSNode.file [1])]).1 :=
  ⟨(C2_passB_file_rule 'S' 'A' 'p' 'd' 'f' '0' '3' '0' '0' '1' '0' '0' '9' '5'
      (Or.inl rfl) (Or.inl rfl) (Or.inr rfl) (Or.inr rfl) (Or.inr rfl)
      (by decide) (by decide) (by decide) (by decide) (by decide)
      (by decide) (by decide) (by decide) (by decide)).1,
   (C2_passB_file_rule 'S' 'A' 'p' 'd' 'f' '0' '3' '0' '0' '1' '0' '0' '9' '5'
      (Or.inl rfl) (Or.inl rfl) (Or.inr rfl) (Or.inr rfl) (Or.inr rfl)
      (by decide) (by decide) (by decide) (by decide) (by decide)
      (by decide) (by decide) (by decide) (by decide)).2
     (fun _ => false) [("S3A0010095.pdf", FSNode.file [1])] "S3A0010095.pdf"
     (FSNode.file [1]) (by decide) (by decide) (by simp)
     (by intro c hc; simp at hc; rw [hc]; decide)⟩

example : pdfTarget "S03A0010095.pdf"
    = some (String.mk ['S', '0', '3'] ++ "_" ++ Nat.repr (digitsVal ['0', '0', '1'])
        ++ "_" ++ Nat.repr (digitsVal ['0', '0', '9', '5']) ++ ".pdf") := by decide

/-- Inversion of a successful pattern match: the filename consists of
exactly the fifteen pattern characters. -/
theorem matchPdfName_some_toList (s : String) (g : String × Nat × Nat)
    (h : matchPdfName s = some g) :
    ∃ c0 c1 c2 c3 c4 c5 c6 c7 c8 c9 c10 c12 c13 c14 : Char,
      s.toList = [c0, c1, c2, c3, c4, c5, c6, c7, c8, c9, c10, '.', c12, c13, c14]
      ∧ ((c12 = 'P' ∨ c12 = 'p') ∧ (c13 = 'D' ∨ c13 = 'd') ∧ (c14 = 'F' ∨ c14 = 'f')) := by
  unfold matchPdfName at h
  split at h
  · rename_i c0 c1 c2 c3 c4 c5 c6 c7 c8 c9 c10 c11 c12 c13 c14 heq
    split at h
    · rename_i hcond
      simp only [Bool.and_eq_true, Bool.or_eq_true, beq_iff_eq] at hcond
      refine ⟨c0, c1, c2, c3, c4, c5, c6, c7, c8, c9, c10, c12, c13, c14, ?_, ?_⟩
      · rw [heq]
        have : c11 = '.' := hcond.1.1.1.2
        rw [this]
      · exact ⟨hcond.1.1.2, hcond.1.2, hcond.2⟩
    · exact absurd h (by simp)
  · exact absurd h (by simp)

theorem toLower_P : 'P'.toLower = 'p' := by decide

theorem toLower_p : 'p'.toLower = 'p' := by decide

theorem toLower_D : 'D'.toLower = 'd' := by decide

theorem toLower_d : 'd'.toLower = 'd' := by decide

theorem toLower_F : 'F'.toLower = 'f' := by decide

theorem toLower_f : 'f'.toLower = 'f' := by decide

theorem toLower_dot : '.'.toLower = '.' := by decide

/-- A name that matches the Pass B pattern also passes the
`filename.lower().endswith('.pdf')` gate. -/
theorem pdfTarget_some_ends (s nn : String) (h : pdfTarget s = some nn) :
    lowerEndsWithPdf s = true := by
  have hm : ∃ g, matchPdfName s = some g := by
    unfold pdfTarget at h
    rcases hg : matchPdfName s with _ | g
    · rw [hg] at h; exact absurd h (by simp)
    · exact ⟨g, rfl⟩
  obtain ⟨g, hg⟩ := hm
  obtain ⟨c0, c1, c2, c3, c4, c5, c6, c7, c8, c9, c10, c12, c13, c14, hl, h12, h13, h14⟩ :=
    matchPdfName_some_toList s g hg
  unfold lowerEndsWithPdf
  rw [hl]
  rcases h12 with h12 | h12 <;> rcases h13 with h13 | h13 <;>
    rcases h14 with h14 | h14 <;> subst h12 <;> subst h13 <;> subst h14 <;>
    simp [toLower_P, toLower_p, toLower_D, toLower_d, toLower_F, toLower_f, toLower_dot]

/-- A Pass B target name never coincides with a name that itself
matches the pattern. -/
theorem pdfTarget_ne_source (s1 nn s2 nn2 : String)
    (h1 : pdfTarget s1 = some nn) (h2 : pdfTarget s2 = some nn2) : nn ≠ s2 := by
  intro he
  have := pdfTarget_out_no_match s1 nn h1
  rw [he] at this
  unfold pdfTarget at h2
  rw [this] at h2
  exact absurd h2 (by simp)

/-- C8: Pass B performs no collision check: in a folder holding two
distinct files that both match the pattern and map to the same target
name, the second rename silently overwrites the first, leaving a single
file with the target name and the second file's content (both renames
are logged as applied). -/
theorem C8_no_collision_check (f1 f2 nn : String) (b1 b2 : List Nat)
    (fails : String → Bool)
    (hne : f1 ≠ f2) (h1 : pdfTarget f1 = some nn) (h2 : pdfTarget f2 = some nn)
    (hfx1 : fails f1 = false) (hfx2 : fails f2 = false) :
    (passBFolder fails [(f1, .file b1), (f2, .file b2)]).1 = [(nn, FSNode.file b2)]
    ∧ (passBFolder fails [(f1, .file b1), (f2, .file b2)]).2
        = [⟨f1, some nn, .applied⟩, ⟨f2, some nn, .applied⟩] := by
  have hp1 := pdfTarget_some_ends f1 nn h1
  have hp2 := pdfTarget_some_ends f2 nn h2
  have hn1 : nn ≠ f1 := pdfTarget_ne_source f1 nn f1 nn h1 h1
  have hn2 : nn ≠ f2 := pdfTarget_ne_source f1 nn f2 nn h1 h2
  have hpend : ([(f1, FSNode.file b1), (f2, FSNode.file b2)].map (fun c => c.1))
      = [f1, f2] := by simp
  unfold passBFolder
  rw [hpend]
  have hfind1 : ([(f1, FSNode.file b1), (f2, FSNode.file b2)].find?
      (fun c => c.1 == f1)) = some (f1, FSNode.file b1) := by simp
  have hcond1 : (([(f1, FSNode.file b1), (f2, FSNode.file b2)].find?
      (fun c => c.1 == f1)).isSome && !fails f1) = true := by
    rw [hfind1, hfx1]; rfl
  rw [passBLoop_cons_app fails f1 nn [f2] _ hp1 h1 hcond1]
  have hre1 : renameEntry [(f1, FSNode.file b1), (f2, FSNode.file b2)] f1 nn
      = [(f2, FSNode.file b2), (nn, FSNode.file b1)] := by
    unfold renameEntry
    rw [hfind1]
    simp [Ne.symm hne, Ne.symm hn2, hn2]
  rw [hre1]
  have hfind2 : ([(f2, FSNode.file b2), (nn, FSNode.file b1)].find?
      (fun c => c.1 == f2)) = some (f2, FSNode.file b2) := by simp
  have hcond2 : (([(f2, FSNode.file b2), (nn, FSNode.file b1)].find?
      (fun c => c.1 == f2)).isSome && !fails f2) = true := by
    rw [hfind2, hfx2]; rfl
  rw [passBLoop_cons_app fails f2 nn [] _ hp2 h2 hcond2]
  have hre2 : renameEntry [(f2, FSNode.file b2), (nn, FSNode.file b1)] f2 nn
      = [(nn, FSNode.file b2)] := by
    unfold renameEntry
    rw [hfind2]
    simp [hn2, Ne.symm hn2]
  rw [hre2, passBLoop_nil]
  exact ⟨rfl, rfl⟩

/-- Witness for C8: `S03A0010095.pdf` and `S03A0010095.PDF` both map to
`S03_1_95.pdf`; the run leaves one file with the second one's bytes. -/
theorem C8_witness :
    (passBFolder (fun _ => false)
        [("S03A0010095.pdf", .file [1]), ("S03A0010095.PDF", .file [2])]).1
      = [("S03_1_95.pdf", FSNode.file [2])]
    ∧ (passBFolder (fun _ => false)
        [("S03A0010095.pdf", .file [1]), ("S03A0010095.PDF", .file [2])]).2
      = [⟨"S03A0010095.pdf", some "S03_1_95.pdf", .applied⟩,
         ⟨"S03A0010095.PDF", some "S03_1_95.pdf", .applied⟩] :=
  C8_no_collision_check "S03A0010095.pdf" "S03A0010095.PDF" "S03_1_95.pdf" [1] [2]
    (fun _ => false) (by decide) (by decide) (by decide) rfl rfl

/-- Map entries and log actions coming from a subtree always carry a
nonempty parent path. -/
theorem passAList_sub_nonnil (fails : List String → Bool)
    (rs : List (String × String)) :
    ∀ (cs : List (String × FSNode)) (s : (String × FSNode)
      × List (List String × String × String) × List AAction),
    s ∈ passAList fails rs cs →
    (∀ m ∈ s.2.1, m.1 ≠ []) ∧ (∀ a ∈ s.2.2, a.pref ≠ []) := by
  intro cs
  induction cs with
  | nil => intro s h; rw [passAList_nil] at h; simp at h
  | cons c cs' ih =>
    intro s h
    rcases hfd : rs.find? (fun r => r.1 == c.1) with _ | r
    · by_cases hd : c.2.isDir
      · rw [passAList_cons_dir fails rs c cs' hfd hd] at h
        rcases List.mem_cons.mp h with he | he
        · subst he
          constructor
          · intro m hm
            obtain ⟨m0, -, hme⟩ := List.mem_map.mp hm
            rw [← hme]
            simp
          · intro a ha
            obtain ⟨a0, -, hae⟩ := List.mem_map.mp ha
            rw [← hae]
            simp
        · exact ih s he
      · rw [passAList_cons_keep fails rs c cs' hfd (Bool.not_eq_true _ ▸ hd)] at h
        rcases List.mem_cons.mp h with he | he
        · subst he; exact ⟨by simp, by simp⟩
        · exact ih s he
    · rw [passAList_cons_renamed fails rs c cs' r hfd] at h
      rcases List.mem_cons.mp h with he | he
      · subst he; exact ⟨by simp, by simp⟩
      · exact ih s he

/-- A rename-map entry with an empty parent path is a level rename. -/
theorem passANode_rmap_nilpref (fails : List String → Bool)
    (ch : List (String × FSNode)) (e : List String × String × String)
    (he : e ∈ (passANode fails (.dir ch)).rmap) (hnil : e.1 = []) :
    (e.2.1, e.2.2) ∈ levelRenames fails ch := by
  rw [passANode_dir] at he
  simp only at he
  rcases List.mem_append.mp he with h | h
  · obtain ⟨r, hr, hre⟩ := List.mem_map.mp h
    rw [← hre]
    simpa using hr
  · obtain ⟨l, hl, hml⟩ := List.mem_flatten.mp h
    obtain ⟨s, hs, hse⟩ := List.mem_map.mp hl
    rw [← hse] at hml
    exact absurd hnil ((passAList_sub_nonnil fails _ ch s hs).1 e hml)

/-- A log action with an empty parent path is a level action. -/
theorem passANode_log_nilpref (fails : List String → Bool)
    (ch : List (String × FSNode)) (a : AAction)
    (ha : a ∈ (passANode fails (.dir ch)).log) (hnil : a.pref = []) :
    a ∈ levelLog fails ch := by
  rw [passANode_dir] at ha
  simp only at ha
  rcases List.mem_append.mp ha with h | h
  · exact h
  · obtain ⟨l, hl, hml⟩ := List.mem_flatten.mp h
    obtain ⟨s, hs, hse⟩ := List.mem_map.mp hl
    rw [← hse] at hml
    exact absurd hnil ((passAList_sub_nonnil fails _ ch s hs).2 a hml)

/-- Membership of a directory child's name in the pending snapshot. -/
theorem mem_dirNamesOf (ch : List (String × FSNode)) (dn : String)
    (sub : List (String × FSNode)) (hmem : (dn, FSNode.dir sub) ∈ ch) :
    dn ∈ dirNamesOf ch := by
  unfold dirNamesOf
  refine List.mem_map.mpr ⟨(dn, FSNode.dir sub), ?_, rfl⟩
  rw [List.mem_filter]
  exact ⟨hmem, rfl⟩

/-- The pending snapshot has distinct names when the listing does. -/
theorem dirNamesOf_nodup (ch : List (String × FSNode))
    (hnd : nodupKeys ch = true) : (dirNamesOf ch).Nodup := by
  have h1 : (keysOf ch).Nodup := (nodupKeys_iff ch).mp hnd
  unfold dirNamesOf
  have hsub : ((ch.filter (fun c => c.2.isDir)).map (fun c => c.1)).Sublist
      (ch.map (fun c => c.1)) := (List.filter_sublist ch).map _
  exact hsub.nodup h1

/-- C4: if the computed target name already exists among the siblings,
the folder is skipped: it keeps its name in the output tree, a
collision is logged, it gets no rename-map entry, and Pass B never
scans it. -/
theorem C4_collision_skip (fails : List String → Bool)
    (ch sub : List (String × FSNode)) (dn nn : String)
    (hnd : nodupKeys ch = true)
    (hmem : (dn, FSNode.dir sub) ∈ ch)
    (hacn : acNewName dn = some nn)
    (hex : nn ∈ keysOf ch) :
    (∃ ch2 t2, (passANode fails (.dir ch)).tree = .dir ch2 ∧ (dn, t2) ∈ ch2)
    ∧ (⟨[], dn, nn, .skippedCollision⟩ : AAction) ∈ (passANode fails (.dir ch)).log
    ∧ (∀ e ∈ (passANode fails (.dir ch)).rmap, e.1 = [] → e.2.1 ≠ dn)
    ∧ [dn] ∉ scannedPaths (passANode fails (.dir ch)) := by
  have hnac : upperStartsWithAC nn = false := acNewName_tgt_not_AC dn nn hacn
  have hpend : dn ∈ dirNamesOf ch := mem_dirNamesOf ch dn sub hmem
  have hpnd : (dirNamesOf ch).Nodup := dirNamesOf_nodup ch hnd
  have hcoll : (⟨[], dn, nn, .skippedCollision⟩ : AAction)
      ∈ levelLog fails ch :=
    renameLoop_coll_of_present (fun n => fails [n]) (dirNamesOf ch) (keysOf ch)
      dn nn hpend hacn hex hnac
  have hnotren : ∀ n, (dn, n) ∉ levelRenames fails ch := by
    intro n
    exact renameLoop_not_renamed_of_status (fun n => fails [n]) (dirNamesOf ch)
      (keysOf ch) hpnd ⟨[], dn, nn, .skippedCollision⟩ hcoll (by simp) n
  have hfind : (levelRenames fails ch).find? (fun r => r.1 == dn) = none := by
    rw [List.find?_eq_none]
    intro r hr
    simp only [beq_eq_false_iff_ne, ne_eq, Bool.not_eq_true]
    intro he
    exact hnotren r.2 (by rw [← he]; exact hr)
  refine ⟨?_, ?_, ?_, ?_⟩
  · rw [passANode_dir]
    obtain ⟨t2, ht2⟩ := passAList_mem_keep fails (levelRenames fails ch) ch
      (dn, FSNode.dir sub) hmem hfind
    exact ⟨_, t2, rfl, ht2⟩
  · rw [passANode_dir]
    exact List.mem_append_left _ hcoll
  · intro e he hnil
    intro hdn
    have hlvl := passANode_rmap_nilpref fails ch e he hnil
    rw [hdn] at hlvl
    exact hnotren e.2.2 hlvl
  · intro hscan
    obtain ⟨e, he, hee⟩ := List.mem_map.mp hscan
    have h1 : e.1 = [] ∧ e.2.2 = dn := by
      rcases hcase : e.1 with _ | ⟨x, xs⟩
      · rw [hcase] at hee
        simp at hee
        exact ⟨rfl, hee⟩
      · rw [hcase] at hee
        simp at hee
    have hlvl := passANode_rmap_nilpref fails ch e he h1.1
    obtain ⟨-, hsh⟩ := renameLoop_rmap_mem _ _ _ e.2.1 e.2.2 hlvl
    have := acNewName_tgt_not_AC e.2.1 e.2.2 hsh
    rw [h1.2] at this
    rw [(acNewName_shape dn nn hacn).1] at this
    exact absurd this (by simp)

/-- Witness for C4: siblings `AC001` and `1` leave `AC001` unrenamed,
logged as a collision, unmapped and unscanned. -/
theorem C4_witness :
    (∃ ch2 t2, (passANode noFail
        (.dir [("AC001", FSNode.dir []), ("1", FSNode.dir [])])).tree = .dir ch2
      ∧ ("AC001", t2) ∈ ch2)
    ∧ (⟨[], "AC001", "1", .skippedCollision⟩ : AAction)
        ∈ (passANode noFail (.dir [("AC001", FSNode.dir []), ("1", FSNode.dir [])])).log
    ∧ (∀ e ∈ (passANode noFail
        (.dir [("AC001", FSNode.dir []), ("1", FSNode.dir [])])).rmap,
        e.1 = [] → e.2.1 ≠ "AC001")
    ∧ ["AC001"] ∉ scannedPaths (passANode noFail
        (.dir [("AC001", FSNode.dir []), ("1", FSNode.dir [])])) :=
  C4_collision_skip noFail [("AC001", FSNode.dir []), ("1", FSNode.dir [])] []
    "AC001" "1" (by decide) (by simp) (by decide) (by decide)

/-- Every listed matching file receives a log action, whatever the
failure oracle does to it or to the other files. -/
theorem passBLoop_eligible (fails : String → Bool) :
    ∀ (pending : List String) (cur : List (String × FSNode)) (fn nn : String),
    fn ∈ pending → lowerEndsWithPdf fn = true → pdfTarget fn = some nn →
    ∃ st, (⟨fn, some nn, st⟩ : BAction) ∈ (passBLoop fails pending cur).2 := by
  intro pending
  induction pending with
  | nil => intro cur fn nn h; simp at h
  | cons y rest ih =>
    intro cur fn nn hmem hpdf htgt
    rcases List.mem_cons.mp hmem with he | he
    · subst he
      by_cases hc : ((cur.find? (fun c => c.1 == fn)).isSome && !fails fn) = true
      · rw [passBLoop_cons_app fails fn nn rest cur hpdf htgt hc]
        exact ⟨.applied, List.mem_cons_self _ _⟩
      · rw [passBLoop_cons_fail fails fn nn rest cur hpdf htgt
          (Bool.not_eq_true _ ▸ hc)]
        exact ⟨.failed, List.mem_cons_self _ _⟩
    · by_cases hpdfy : lowerEndsWithPdf y
      · rcases hm : pdfTarget y with _ | t
        · rw [passBLoop_cons_nomatch fails y rest cur hpdfy hm]
          obtain ⟨st, hst⟩ := ih cur fn nn he hpdf htgt
          exact ⟨st, List.mem_cons_of_mem _ hst⟩
        · by_cases hc : ((cur.find? (fun c => c.1 == y)).isSome && !fails y) = true
          · rw [passBLoop_cons_app fails y t rest cur hpdfy hm hc]
            obtain ⟨st, hst⟩ := ih _ fn nn he hpdf htgt
            exact ⟨st, List.mem_cons_of_mem _ hst⟩
          · rw [passBLoop_cons_fail fails y t rest cur hpdfy hm
              (Bool.not_eq_true _ ▸ hc)]
            obtain ⟨st, hst⟩ := ih cur fn nn he hpdf htgt
            exact ⟨st, List.mem_cons_of_mem _ hst⟩
      · rw [passBLoop_cons_nopdf fails y rest cur (Bool.not_eq_true _ ▸ hpdfy)]
        exact ih cur fn nn he hpdf htgt

/-- A file whose own move raises is left in place by the folder loop. -/
theorem passBLoop_failed_keep (fails : String → Bool) :
    ∀ (pending : List String) (cur : List (String × FSNode)) (fn : String)
    (x : FSNode) (nn : String), (fn, x) ∈ cur → pdfTarget fn = some nn →
    fails fn = true → (fn, x) ∈ (passBLoop fails pending cur).1 := by
  intro pending
  induction pending with
  | nil => intro cur fn x nn hmem _ _; rw [passBLoop_nil]; exact hmem
  | cons y rest ih =>
    intro cur fn x nn hmem htgt hfl
    by_cases hpdfy : lowerEndsWithPdf y
    · rcases hm : pdfTarget y with _ | t
      · rw [passBLoop_cons_nomatch fails y rest cur hpdfy hm]
        exact ih cur fn x nn hmem htgt hfl
      · by_cases hyfn : y = fn
        · subst hyfn
          have hc : ((cur.find? (fun c => c.1 == y)).isSome && !fails y) = false := by
            rw [hfl]
            simp
          rw [passBLoop_cons_fail fails y t rest cur hpdfy hm hc]
          exact ih cur y x nn hmem htgt hfl
        · by_cases hc : ((cur.find? (fun c => c.1 == y)).isSome && !fails y) = true
          · rw [passBLoop_cons_app fails y t rest cur hpdfy hm hc]
            apply ih _ fn x nn _ htgt hfl
            apply renameEntry_keep cur y t fn x hmem (fun he => hyfn he.symm)
            exact Ne.symm (pdfTarget_ne_source y t fn nn hm htgt)
          · rw [passBLoop_cons_fail fails y t rest cur hpdfy hm
              (Bool.not_eq_true _ ▸ hc)]
            exact ih cur fn x nn hmem htgt hfl
    · rw [passBLoop_cons_nopdf fails y rest cur (Bool.not_eq_true _ ▸ hpdfy)]
      exact ih cur fn x nn hmem htgt hfl

/-- C9: both passes keep processing after any per-entry failure: every
eligible entry receives its own log action no matter what the failure
oracle does elsewhere, and an entry whose own move raised keeps its
name (and, for folders, stays out of the rename map). -/
theorem C9_per_entry_isolation :
    (∀ (fails : String → Bool) (pending names : List String) (dn nn : String),
      dn ∈ pending → acNewName dn = some nn →
      ∃ st, (⟨[], dn, nn, st⟩ : AAction) ∈ (renameLoop fails pending names).2)
    ∧ (∀ (fails : List String → Bool) (ch : List (String × FSNode)) (a : AAction),
      nodupKeys ch = true → a ∈ levelLog fails ch → a.status = .failed →
      (∃ ch2 t2, (passANode fails (.dir ch)).tree = .dir ch2 ∧ (a.old, t2) ∈ ch2)
      ∧ (∀ e ∈ (passANode fails (.dir ch)).rmap, e.1 = [] → e.2.1 ≠ a.old))
    ∧ (∀ (fails : String → Bool) (pending : List String)
      (cur : List (String × FSNode)) (fn nn : String),
      fn ∈ pending → lowerEndsWithPdf fn = true → pdfTarget fn = some nn →
      ∃ st, (⟨fn, some nn, st⟩ : BAction) ∈ (passBLoop fails pending cur).2)
    ∧ (∀ (fails : String → Bool) (pending : List String)
      (cur : List (String × FSNode)) (fn : String) (x : FSNode) (nn : String),
      (fn, x) ∈ cur → pdfTarget fn = some nn → fails fn = true →
      (fn, x) ∈ (passBLoop fails pending cur).1) := by
  refine ⟨renameLoop_eligible, ?_, passBLoop_eligible, passBLoop_failed_keep⟩
  intro fails ch a hnd ha hst
  obtain ⟨-, hpend, hsh⟩ := renameLoop_log_mem _ _ _ a ha
  have hpnd : (dirNamesOf ch).Nodup := dirNamesOf_nodup ch hnd
  have hnotren : ∀ n, (a.old, n) ∉ levelRenames fails ch := by
    intro n
    exact renameLoop_not_renamed_of_status (fun n => fails [n]) (dirNamesOf ch)
      (keysOf ch) hpnd a ha (by rw [hst]; simp) n
  have hfind : (levelRenames fails ch).find? (fun r => r.1 == a.old) = none := by
    rw [List.find?_eq_none]
    intro r hr
    simp only [beq_eq_false_iff_ne, ne_eq, Bool.not_eq_true]
    intro he
    exact hnotren r.2 (by rw [← he]; exact hr)
  constructor
  · obtain ⟨c, hc, hce⟩ := List.mem_map.mp hpend
    have hcm : c ∈ ch := (List.mem_filter.mp hc).1
    rw [passANode_dir]
    have hfind' : (levelRenames fails ch).find? (fun r => r.1 == c.1) = none := by
      rw [hce]; exact hfind
    obtain ⟨t2, ht2⟩ := passAList_mem_keep fails (levelRenames fails ch) ch c hcm hfind'
    rw [hce] at ht2
    exact ⟨_, t2, rfl, ht2⟩
  · intro e he hnil hdn
    have hlvl := passANode_rmap_nilpref fails ch e he hnil
    rw [hdn] at hlvl
    exact hnotren e.2.2 hlvl

/-- A failure oracle hitting exactly the folder `AC001`. -/
def failA1 : List String → Bool := fun p => p == ["AC001"]

/-- A failure oracle hitting exactly the file `S03A0010095.pdf`. -/
def failB1 : String → Bool := fun n => n == "S03A0010095.pdf"

/-- Witness for C9: with a failing move on `AC001` (resp. on
`S03A0010095.pdf`), the other eligible entries are still processed and
the failed entry keeps its place. -/
theorem C9_witness :
    (∃ st, (⟨[], "AC002", "2", st⟩ : AAction)
      ∈ (renameLoop (fun n => failA1 [n]) ["AC001", "AC002"] ["AC001", "AC002"]).2)
    ∧ ((∃ ch2 t2, (passANode failA1
          (.dir [("AC001", FSNode.dir []), ("AC002", FSNode.dir [])])).tree = .dir ch2
        ∧ ("AC001", t2) ∈ ch2)
      ∧ (∀ e ∈ (passANode failA1
          (.dir [("AC001", FSNode.dir []), ("AC002", FSNode.dir [])])).rmap,
          e.1 = [] → e.2.1 ≠ "AC001"))
    ∧ (∃ st, (⟨"S04A0020003.pdf", some "S04_2_3.pdf", st⟩ : BAction)
      ∈ (passBLoop failB1 ["S03A0010095.pdf", "S04A0020003.pdf"]
          [("S03A0010095.pdf", .file [1]), ("S04A0020003.pdf", .file [2])]).2)
    ∧ ("S03A0010095.pdf", FSNode.file [1])
      ∈ (passBLoop failB1 ["S03A0010095.pdf", "S04A0020003.pdf"]
          [("S03A0010095.pdf", .file [1]), ("S04A0020003.pdf", .file [2])]).1 :=
  ⟨C9_per_entry_isolation.1 (fun n => failA1 [n]) ["AC001", "AC002"]
     ["AC001", "AC002"] "AC002" "2" (by decide) (by decide),
   C9_per_entry_isolation.2.1 failA1 [("AC001", FSNode.dir []), ("AC002", FSNode.dir [])]
     ⟨[], "AC001", "1", .failed⟩ (by decide) (by decide) rfl,
   C9_per_entry_isolation.2.2.1 failB1 ["S03A0010095.pdf", "S04A0020003.pdf"]
     [("S03A0010095.pdf", .file [1]), ("S04A0020003.pdf", .file [2])]
     "S04A0020003.pdf" "S04_2_3.pdf" (by decide) (by decide) (by decide),
   C9_per_entry_isolation.2.2.2 failB1 ["S03A0010095.pdf", "S04A0020003.pdf"]
     [("S03A0010095.pdf", .file [1]), ("S04A0020003.pdf", .file [2])]
     "S03A0010095.pdf" (FSNode.file [1]) "S03_1_95.pdf" (by simp) (by decide) (by decide)⟩

/-! Pass B scanning scope and the rename-map/log correspondence. -/

theorem passBAll_nil (fails : List String → Bool) (t : FSNode) :
    passBAll fails t [] = (t, []) := by
  simp [passBAll]

theorem passBAll_cons_dir (fails : List String → Bool) (t : FSNode)
    (fp : List String) (rest : List (List String)) (ch : List (String × FSNode))
    (h : lookupNode t fp = some (.dir ch)) :
    passBAll fails t (fp :: rest)
      = ((passBAll fails
            (setChildren t fp (passBLoop (fun n => fails (fp ++ [n]))
              (ch.map (fun c => c.1)) ch).1) rest).1,
         (passBLoop (fun n => fails (fp ++ [n])) (ch.map (fun c => c.1)) ch).2.map
             (fun a => (fp, a))
           ++ (passBAll fails
            (setChildren t fp (passBLoop (fun n => fails (fp ++ [n]))
              (ch.map (fun c => c.1)) ch).1) rest).2) := by
  simp [passBAll, h]

theorem passBAll_cons_other (fails : List String → Bool) (t : FSNode)
    (fp : List String) (rest : List (List String))
    (h : ∀ ch, lookupNode t fp ≠ some (.dir ch)) :
    passBAll fails t (fp :: rest) = passBAll fails t rest := by
  rcases hl : lookupNode t fp with _ | u
  · simp [passBAll, hl]
  · cases u with
    | file b => simp [passBAll, hl]
    | dir ch => exact absurd hl (h ch)

/-- Every Pass B action is logged against one of the scanned folder
paths. -/
theorem passBAll_act_scope (fails : List String → Bool) :
    ∀ (paths : List (List String)) (t : FSNode) (fa : List String × BAction),
    fa ∈ (passBAll fails t paths).2 → fa.1 ∈ paths := by
  intro paths
  induction paths with
  | nil => intro t fa h; rw [passBAll_nil] at h; simp at h
  | cons fp rest ih =>
    intro t fa h
    rcases hl : lookupNode t fp with _ | u
    · rw [passBAll_cons_other fails t fp rest (by rw [hl]; simp)] at h
      exact List.mem_cons_of_mem _ (ih _ fa h)
    · cases u with
      | file b =>
        rw [passBAll_cons_other fails t fp rest (by rw [hl]; simp)] at h
        exact List.mem_cons_of_mem _ (ih _ fa h)
      | dir ch =>
        rw [passBAll_cons_dir fails t fp rest ch hl] at h
        rcases List.mem_append.mp h with h | h
        · obtain ⟨a, -, hae⟩ := List.mem_map.mp h
          rw [← hae]
          exact List.mem_cons_self _ _
        · exact List.mem_cons_of_mem _ (ih _ fa h)

theorem passAList_rmap_iff_log (fails : List String → Bool)
    (rs : List (String × String)) :
    ∀ (cs : List (String × FSNode)),
    (∀ c ∈ cs, ∀ (fails' : List String → Bool) (e : List String × String × String),
      e ∈ (passANode fails' c.2).rmap ↔
        (⟨e.1, e.2.1, e.2.2, .applied⟩ : AAction) ∈ (passANode fails' c.2).log) →
    ∀ e, e ∈ ((passAList fails rs cs).map (fun s => s.2.1)).flatten ↔
      (⟨e.1, e.2.1, e.2.2, .applied⟩ : AAction)
        ∈ ((passAList fails rs cs).map (fun s => s.2.2)).flatten := by
  intro cs
  induction cs with
  | nil => intro _ e; rw [passAList_nil]; simp
  | cons c cs' ih =>
    intro hch e
    have hch' : ∀ c' ∈ cs', ∀ (fails' : List String → Bool)
        (e' : List String × String × String),
        e' ∈ (passANode fails' c'.2).rmap ↔
          (⟨e'.1, e'.2.1, e'.2.2, .applied⟩ : AAction) ∈ (passANode fails' c'.2).log :=
      fun c' hc' => hch c' (List.mem_cons_of_mem _ hc')
    rcases hfd : rs.find? (fun r => r.1 == c.1) with _ | r
    · by_cases hd : c.2.isDir
      · rw [passAList_cons_dir fails rs c cs' hfd hd]
        simp only [List.map_cons, List.flatten_cons, List.mem_append]
        apply or_congr
        · constructor
          · intro h
            obtain ⟨m, hm, hme⟩ := List.mem_map.mp h
            have := (hch c (List.mem_cons_self _ _) (fun pp => fails (c.1 :: pp)) m).mp hm
            refine List.mem_map.mpr ⟨⟨m.1, m.2.1, m.2.2, .applied⟩, this, ?_⟩
            rw [← hme]
          · intro h
            obtain ⟨a0, ha0, hae⟩ := List.mem_map.mp h
            rw [AAction.mk.injEq] at hae
            obtain ⟨hp, ho, ht, hs⟩ := hae
            have ha0e : a0 = ⟨a0.pref, e.2.1, e.2.2, .applied⟩ := by
              rw [AAction.mk.injEq]
              exact ⟨rfl, ho, ht, hs⟩
            rw [ha0e] at ha0
            have := (hch c (List.mem_cons_self _ _) (fun pp => fails (c.1 :: pp))
              (a0.pref, e.2.1, e.2.2)).mpr ha0
            refine List.mem_map.mpr ⟨(a0.pref, e.2.1, e.2.2), this, ?_⟩
            simp only
            rw [hp]
        · exact ih hch' e
      · rw [passAList_cons_keep fails rs c cs' hfd (Bool.not_eq_true _ ▸ hd)]
        simp only [List.map_cons, List.flatten_cons]
        simp only [List.nil_append]
        exact ih hch' e
    · rw [passAList_cons_renamed fails rs c cs' r hfd]
      simp only [List.map_cons, List.flatten_cons]
      simp only [List.nil_append]
      exact ih hch' e

/-- The Pass A rename map holds exactly the folders whose rename was
applied. -/
theorem passANode_rmap_iff_log : ∀ (t : FSNode) (fails : List String → Bool)
    (e : List String × String × String),
    e ∈ (passANode fails t).rmap ↔
      (⟨e.1, e.2.1, e.2.2, .applied⟩ : AAction) ∈ (passANode fails t).log := by
  intro t
  induction t using FSNode.inductionOn with
  | hf b => intro fails e; rw [passANode_file]; simp
  | hd ch ihch =>
    intro fails e
    rw [passANode_dir]
    simp only [List.mem_append]
    apply or_congr
    · constructor
      · intro h
        obtain ⟨r, hr, hre⟩ := List.mem_map.mp h
        have := (renameLoop_rmap_iff_applied (fun n => fails [n]) (dirNamesOf ch)
          (keysOf ch) r.1 r.2).mp hr
        rw [← hre]
        exact this
      · intro h
        have hm := renameLoop_log_mem (fun n => fails [n]) (dirNamesOf ch)
          (keysOf ch) _ h
        simp only at hm
        have hnil : e.1 = [] := hm.1
        rw [hnil] at h
        have := (renameLoop_rmap_iff_applied (fun n => fails [n]) (dirNamesOf ch)
          (keysOf ch) e.2.1 e.2.2).mpr h
        refine List.mem_map.mpr ⟨(e.2.1, e.2.2), this, ?_⟩
        show (([] : List String), e.2.1, e.2.2) = e
        rw [← hnil]
    · exact passAList_rmap_iff_log fails (levelRenames fails ch) ch
        (fun c hc => ihch c hc) e

/-- C3: a folder has a rename-map entry exactly when its rename was
applied (no entry for no-match, collision, or failed folders); Pass B
scans exactly the values of that map, and every file action it logs is
against one of those scanned folders — so folders not renamed in Pass A
never have their files renamed. -/
theorem C3_scan_scope (failsA failsB : List String → Bool) (t : FSNode) :
    (∀ e, e ∈ (passANode failsA t).rmap ↔
        (⟨e.1, e.2.1, e.2.2, .applied⟩ : AAction) ∈ (passANode failsA t).log)
    ∧ scannedPaths (passANode failsA t)
        = (passANode failsA t).rmap.map (fun e => e.1 ++ [e.2.2])
    ∧ (∀ fa ∈ (passBAll failsB (passANode failsA t).tree
          (scannedPaths (passANode failsA t))).2,
        fa.1 ∈ scannedPaths (passANode failsA t)) :=
  ⟨passANode_rmap_iff_log t failsA, rfl,
   fun fa hfa => passBAll_act_scope failsB _ _ fa hfa⟩

/-- Witness for C3 on a one-folder tree: the map entry for `AC001`
corresponds to its applied action, and the scan list is the map's
values. -/
theorem C3_witness :
    ((([], "AC001", "1") : List String × String × String)
        ∈ (passANode noFail (.dir [("AC001", FSNode.dir [])])).rmap ↔
      (⟨[], "AC001", "1", .applied⟩ : AAction)
        ∈ (passANode noFail (.dir [("AC001", FSNode.dir [])])).log)
    ∧ scannedPaths (passANode noFail (.dir [("AC001", FSNode.dir [])]))
        = (passANode noFail (.dir [("AC001", FSNode.dir [])])).rmap.map
            (fun e => e.1 ++ [e.2.2]) :=
  ⟨(C3_scan_scope noFail noFail (.dir [("AC001", FSNode.dir [])])).1 ([], "AC001", "1"),
   (C3_scan_scope noFail noFail (.dir [("AC001", FSNode.dir [])])).2.1⟩

/-! How one Pass A level transforms its listing. -/

/-- The effect of one Pass A level on a single child entry. -/
def applyChild (fails : List String → Bool) (rs : List (String × String))
    (c : String × FSNode) : String × FSNode :=
  match rs.find? (fun r => r.1 == c.1) with
  | some r => (r.2, c.2)
  | none =>
    if c.2.isDir then (c.1, (passANode (fun pp => fails (c.1 :: pp)) c.2).tree)
    else (c.1, c.2)

theorem passAList_map_fst (fails : List String → Bool)
    (rs : List (String × String)) :
    ∀ (cs : List (String × FSNode)),
    (passAList fails rs cs).map (fun s => s.1) = cs.map (applyChild fails rs) := by
  intro cs
  induction cs with
  | nil => rw [passAList_nil]; simp
  | cons c cs' ih =>
    rcases hfd : rs.find? (fun r => r.1 == c.1) with _ | r
    · by_cases hd : c.2.isDir
      · rw [passAList_cons_dir fails rs c cs' hfd hd]
        simp only [List.map_cons, ih]
        unfold applyChild
        rw [hfd]
        simp [hd]
      · rw [passAList_cons_keep fails rs c cs' hfd (Bool.not_eq_true _ ▸ hd)]
        simp only [List.map_cons, ih]
        unfold applyChild
        rw [hfd]
        simp [hd]
    · rw [passAList_cons_renamed fails rs c cs' r hfd]
      simp only [List.map_cons, ih]
      unfold applyChild
      rw [hfd]

theorem find?_key_unique {α : Type} (c : String × α) : ∀ (l : List (String × α)),
    c ∈ l → (∀ c' ∈ l, c'.1 = c.1 → c' = c) →
    l.find? (fun d => d.1 == c.1) = some c := by
  intro l
  induction l with
  | nil => intro h; simp at h
  | cons h tl ih =>
    intro hmem huniq
    by_cases hk : h.1 = c.1
    · have : h = c := huniq h (List.mem_cons_self _ _) hk
      subst this
      rw [List.find?_cons_of_pos]
      simp
    · rw [List.find?_cons_of_neg _ (by simp [hk])]
      apply ih
      · rcases List.mem_cons.mp hmem with he | he
        · exact absurd (congrArg Prod.fst he.symm) hk
        · exact he
      · exact fun c' hc' => huniq c' (List.mem_cons_of_mem _ hc')

theorem find?_key_none {α : Type} (x : String) : ∀ (l : List (String × α)),
    (∀ c ∈ l, c.1 ≠ x) → l.find? (fun d => d.1 == x) = none := by
  intro l h
  rw [List.find?_eq_none]
  intro d hd
  simp only [beq_eq_false_iff_ne, ne_eq, Bool.not_eq_true]
  exact h d hd

/-- Facts about the level renames of a well-named listing. -/
theorem levelRenames_facts (fails : List String → Bool)
    (ch : List (String × FSNode)) (hnd : nodupKeys ch = true) :
    (∀ r ∈ levelRenames fails ch, r.1 ∈ keysOf ch ∧ r.2 ∉ keysOf ch
      ∧ acNewName r.1 = some r.2)
    ∧ ((levelRenames fails ch).map (fun r => r.1)).Nodup
    ∧ ((levelRenames fails ch).map (fun r => r.2)).Nodup := by
  have hpnd : (dirNamesOf ch).Nodup := dirNamesOf_nodup ch hnd
  have hsub : ∀ x ∈ dirNamesOf ch, x ∈ keysOf ch := by
    intro x hx
    unfold dirNamesOf at hx
    obtain ⟨c, hc, hce⟩ := List.mem_map.mp hx
    exact List.mem_map.mpr ⟨c, (List.mem_filter.mp hc).1, hce⟩
  refine ⟨?_, ?_, ?_⟩
  · intro r hr
    obtain ⟨ho, hsh⟩ := renameLoop_rmap_mem _ _ _ r.1 r.2 hr
    exact ⟨hsub r.1 ho, renameLoop_tgt_fresh _ _ _ r.1 r.2 hr, hsh⟩
  · exact renameLoop_rmap_olds_nodup _ _ _ hpnd
  · exact renameLoop_tgts_nodup _ _ _ hpnd hsub

/-- Children with equal names are equal in a well-named listing. -/
theorem key_inj (ch : List (String × FSNode)) (hnd : nodupKeys ch = true)
    (c c' : String × FSNode) (hc : c ∈ ch) (hc' : c' ∈ ch) (he : c'.1 = c.1) :
    c' = c :=
  List.inj_on_of_nodup_map ((nodupKeys_iff ch).mp hnd) hc' hc he

/-- In the rename list of a level, the entry of a renamed old name is
found. -/
theorem levelRenames_find_self (fails : List String → Bool)
    (ch : List (String × FSNode)) (hnd : nodupKeys ch = true)
    (r : String × String) (hr : r ∈ levelRenames fails ch) :
    (levelRenames fails ch).find? (fun q => q.1 == r.1) = some r := by
  apply find?_key_unique
  · exact hr
  · intro q hq he
    exact List.inj_on_of_nodup_map (levelRenames_facts fails ch hnd).2.1 hq hr he

/-- The key of the transformed entry of an unrenamed child. -/
theorem applyChild_key_none (fails : List String → Bool)
    (rs : List (String × String)) (c : String × FSNode)
    (hfd : rs.find? (fun r => r.1 == c.1) = none) :
    (applyChild fails rs c).1 = c.1 := by
  unfold applyChild
  rw [hfd]
  by_cases hd : c.2.isDir
  · rw [if_pos hd]
  · rw [if_neg hd]

/-- Looking up an unrenamed child in the transformed listing. -/
theorem level_find_unrenamed (fails : List String → Bool)
    (ch : List (String × FSNode)) (hnd : nodupKeys ch = true)
    (c : String × FSNode) (hc : c ∈ ch)
    (hfd : (levelRenames fails ch).find? (fun r => r.1 == c.1) = none) :
    (ch.map (applyChild fails (levelRenames fails ch))).find?
        (fun d => d.1 == c.1) = some (applyChild fails (levelRenames fails ch) c) := by
  have hak := applyChild_key_none fails (levelRenames fails ch) c hfd
  rw [← hak]
  apply find?_key_unique
  · exact List.mem_map.mpr ⟨c, hc, rfl⟩
  · intro d hd he
    obtain ⟨c'', hc'', hce⟩ := List.mem_map.mp hd
    rw [← hce] at he ⊢
    rw [hak] at he
    rcases hfd'' : (levelRenames fails ch).find? (fun r => r.1 == c''.1) with _ | r''
    · have hk'' := applyChild_key_none fails (levelRenames fails ch) c'' hfd''
      rw [hk''] at he
      rw [key_inj ch hnd c c'' hc hc'' he]
    · have hr'' : r'' ∈ levelRenames fails ch := List.mem_of_find?_eq_some hfd''
      have hkey : (applyChild fails (levelRenames fails ch) c'').1 = r''.2 := by
        unfold applyChild
        rw [hfd'']
      rw [hkey] at he
      have := ((levelRenames_facts fails ch hnd).1 r'' hr'').2.1
      rw [he] at this
      exact absurd (List.mem_map.mpr ⟨c, hc, rfl⟩) this

/-- Looking up a renamed child in the transformed listing: it is found
under its new name, carrying its original subtree. -/
theorem level_find_renamed (fails : List String → Bool)
    (ch : List (String × FSNode)) (hnd : nodupKeys ch = true)
    (c : String × FSNode) (hc : c ∈ ch) (r : String × String)
    (hr : r ∈ levelRenames fails ch) (hkey : c.1 = r.1) :
    (ch.map (applyChild fails (levelRenames fails ch))).find?
        (fun d => d.1 == r.2) = some (r.2, c.2) := by
  have hfdc : (levelRenames fails ch).find? (fun q => q.1 == c.1) = some r := by
    rw [hkey]
    exact levelRenames_find_self fails ch hnd r hr
  have hac : applyChild fails (levelRenames fails ch) c = (r.2, c.2) := by
    unfold applyChild
    rw [hfdc]
  show (ch.map (applyChild fails (levelRenames fails ch))).find?
      (fun d => d.1 == ((r.2, c.2) : String × FSNode).1) = some (r.2, c.2)
  apply find?_key_unique
  · exact List.mem_map.mpr ⟨c, hc, hac⟩
  · intro d hd he
    have he2 : d.1 = r.2 := he
    obtain ⟨c'', hc'', hce⟩ := List.mem_map.mp hd
    rcases hfd'' : (levelRenames fails ch).find? (fun q => q.1 == c''.1) with _ | r''
    · have hk'' := applyChild_key_none fails (levelRenames fails ch) c'' hfd''
      rw [← hce, hk''] at he2
      have hfr := ((levelRenames_facts fails ch hnd).1 r hr).2.1
      rw [← he2] at hfr
      exact absurd (List.mem_map.mpr ⟨c'', hc'', rfl⟩) hfr
    · have hkey'' : (applyChild fails (levelRenames fails ch) c'').1 = r''.2 := by
        unfold applyChild
        rw [hfd'']
      rw [← hce, hkey''] at he2
      have hr'' : r'' ∈ levelRenames fails ch := List.mem_of_find?_eq_some hfd''
      have hre : r'' = r :=
        List.inj_on_of_nodup_map (levelRenames_facts fails ch hnd).2.2 hr'' hr he2
      have h1 : r''.1 = c''.1 := by
        have := List.find?_some hfd''
        simpa using this
      have hc2 : c'' = c := by
        apply key_inj ch hnd c c'' hc hc''
        rw [← h1, hre, ← hkey]
      rw [← hce, hc2, hac]

/-- After a rename, no child of the transformed listing answers to the
old name. -/
theorem level_find_old_none (fails : List String → Bool)
    (ch : List (String × FSNode)) (hnd : nodupKeys ch = true)
    (r : String × String) (hr : r ∈ levelRenames fails ch) :
    (ch.map (applyChild fails (levelRenames fails ch))).find?
        (fun d => d.1 == r.1) = none := by
  apply find?_key_none
  intro d hd
  obtain ⟨c'', hc'', hce⟩ := List.mem_map.mp hd
  rw [← hce]
  rcases hfd'' : (levelRenames fails ch).find? (fun q => q.1 == c''.1) with _ | r''
  · rw [applyChild_key_none fails (levelRenames fails ch) c'' hfd'']
    intro he
    rw [List.find?_eq_none] at hfd''
    have := hfd'' r hr
    rw [he] at this
    simp at this
  · have hkey'' : (applyChild fails (levelRenames fails ch) c'').1 = r''.2 := by
      unfold applyChild
      rw [hfd'']
    rw [hkey'']
    intro he
    have hr'' : r'' ∈ levelRenames fails ch := List.mem_of_find?_eq_some hfd''
    have hsh'' := ((levelRenames_facts fails ch hnd).1 r'' hr'').2.2
    have hshr := ((levelRenames_facts fails ch hnd).1 r hr).2.2
    have hnac := acNewName_tgt_not_AC r''.1 r''.2 hsh''
    have hac := (acNewName_shape r.1 r.2 hshr).1
    rw [he, hac] at hnac
    exact absurd hnac (by simp)

theorem passAList_flatten_rmap_mem (fails : List String → Bool)
    (rs : List (String × String)) :
    ∀ (cs : List (String × FSNode)) (e : List String × String × String),
    e ∈ ((passAList fails rs cs).map (fun s => s.2.1)).flatten →
    ∃ c, c ∈ cs ∧ rs.find? (fun r => r.1 == c.1) = none ∧ c.2.isDir = true ∧
      ∃ m ∈ (passANode (fun pp => fails (c.1 :: pp)) c.2).rmap,
        e = (c.1 :: m.1, m.2) := by
  intro cs
  induction cs with
  | nil => intro e h; rw [passAList_nil] at h; simp at h
  | cons c cs' ih =>
    intro e h
    rcases hfd : rs.find? (fun r => r.1 == c.1) with _ | r
    · by_cases hd : c.2.isDir
      · rw [passAList_cons_dir fails rs c cs' hfd hd] at h
        simp only [List.map_cons, List.flatten_cons, List.mem_append] at h
        rcases h with h | h
        · obtain ⟨m, hm, hme⟩ := List.mem_map.mp h
          exact ⟨c, List.mem_cons_self _ _, hfd, hd, m, hm, hme.symm⟩
        · obtain ⟨c0, h1, h2, h3, m, hm, hme⟩ := ih e h
          exact ⟨c0, List.mem_cons_of_mem _ h1, h2, h3, m, hm, hme⟩
      · rw [passAList_cons_keep fails rs c cs' hfd (Bool.not_eq_true _ ▸ hd)] at h
        simp only [List.map_cons, List.flatten_cons, List.nil_append] at h
        obtain ⟨c0, h1, h2, h3, m, hm, hme⟩ := ih e h
        exact ⟨c0, List.mem_cons_of_mem _ h1, h2, h3, m, hm, hme⟩
    · rw [passAList_cons_renamed fails rs c cs' r hfd] at h
      simp only [List.map_cons, List.flatten_cons, List.nil_append] at h
      obtain ⟨c0, h1, h2, h3, m, hm, hme⟩ := ih e h
      exact ⟨c0, List.mem_cons_of_mem _ h1, h2, h3, m, hm, hme⟩

theorem passAList_flatten_log_mem (fails : List String → Bool)
    (rs : List (String × String)) :
    ∀ (cs : List (String × FSNode)) (a : AAction),
    a ∈ ((passAList fails rs cs).map (fun s => s.2.2)).flatten →
    ∃ c, c ∈ cs ∧ rs.find? (fun r => r.1 == c.1) = none ∧ c.2.isDir = true ∧
      ∃ a0 ∈ (passANode (fun pp => fails (c.1 :: pp)) c.2).log,
        a = ⟨c.1 :: a0.pref, a0.old, a0.tgt, a0.status⟩ := by
  intro cs
  induction cs with
  | nil => intro a h; rw [passAList_nil] at h; simp at h
  | cons c cs' ih =>
    intro a h
    rcases hfd : rs.find? (fun r => r.1 == c.1) with _ | r
    · by_cases hd : c.2.isDir
      · rw [passAList_cons_dir fails rs c cs' hfd hd] at h
        simp only [List.map_cons, List.flatten_cons, List.mem_append] at h
        rcases h with h | h
        · obtain ⟨a0, ha0, hae⟩ := List.mem_map.mp h
          exact ⟨c, List.mem_cons_self _ _, hfd, hd, a0, ha0, hae.symm⟩
        · obtain ⟨c0, h1, h2, h3, a0, ha0, hae⟩ := ih a h
          exact ⟨c0, List.mem_cons_of_mem _ h1, h2, h3, a0, ha0, hae⟩
      · rw [passAList_cons_keep fails rs c cs' hfd (Bool.not_eq_true _ ▸ hd)] at h
        simp only [List.map_cons, List.flatten_cons, List.nil_append] at h
        obtain ⟨c0, h1, h2, h3, a0, ha0, hae⟩ := ih a h
        exact ⟨c0, List.mem_cons_of_mem _ h1, h2, h3, a0, ha0, hae⟩
    · rw [passAList_cons_renamed fails rs c cs' r hfd] at h
      simp only [List.map_cons, List.flatten_cons, List.nil_append] at h
      obtain ⟨c0, h1, h2, h3, a0, ha0, hae⟩ := ih a h
      exact ⟨c0, List.mem_cons_of_mem _ h1, h2, h3, a0, ha0, hae⟩

theorem find?_child (ch : List (String × FSNode)) (hnd : nodupKeys ch = true)
    (c : String × FSNode) (hc : c ∈ ch) :
    ch.find? (fun d => d.1 == c.1) = some c :=
  find?_key_unique c ch hc (fun c' hc' he => key_inj ch hnd c c' hc hc' he)

theorem dirNamesOf_child (ch : List (String × FSNode)) (o : String)
    (h : o ∈ dirNamesOf ch) : ∃ c ∈ ch, c.1 = o ∧ c.2.isDir = true := by
  unfold dirNamesOf at h
  obtain ⟨c, hc, hce⟩ := List.mem_map.mp h
  obtain ⟨hcm, hcd⟩ := List.mem_filter.mp hc
  exact ⟨c, hcm, hce, hcd⟩

/-- C10: every folder Pass A renames is carried over unchanged: its
entire subtree is found at the new path exactly as it was at the old
path, and the old path is gone — so nothing inside a renamed folder is
examined or renamed in the same run. -/
theorem C10_renamed_subtree_preserved : ∀ (t : FSNode) (fails : List String → Bool),
    wfTree t = true → ∀ e ∈ (passANode fails t).rmap,
    lookupNode (passANode fails t).tree (e.1 ++ [e.2.2])
        = lookupNode t (e.1 ++ [e.2.1])
    ∧ lookupNode (passANode fails t).tree (e.1 ++ [e.2.1]) = none := by
  intro t
  induction t using FSNode.inductionOn with
  | hf b =>
    intro fails _ e he
    rw [passANode_file] at he
    simp at he
  | hd ch ihch =>
    intro fails hwf e he
    obtain ⟨hnd, hwfc⟩ := (wfTree_dir ch).mp hwf
    rw [passANode_dir] at he ⊢
    simp only [List.mem_append] at he
    have htree : ((passAList fails (levelRenames fails ch) ch).map (fun s => s.1))
        = ch.map (applyChild fails (levelRenames fails ch)) :=
      passAList_map_fst fails (levelRenames fails ch) ch
    rcases he with he | he
    · obtain ⟨r, hr, hre⟩ := List.mem_map.mp he
      obtain ⟨ho, -⟩ := renameLoop_rmap_mem _ _ _ r.1 r.2 hr
      obtain ⟨c, hc, hck, -⟩ := dirNamesOf_child ch r.1 ho
      rw [← hre]
      simp only [List.nil_append]
      refine ⟨?_, ?_⟩
      · show lookupNode (.dir ((passAList fails (levelRenames fails ch) ch).map
          (fun s => s.1))) [r.2] = lookupNode (.dir ch) [r.1]
        rw [htree]
        simp only [lookupNode]
        rw [level_find_renamed fails ch hnd c hc r hr hck]
        rw [← hck, find?_child ch hnd c hc]
      · show lookupNode (.dir ((passAList fails (levelRenames fails ch) ch).map
          (fun s => s.1))) [r.1] = none
        rw [htree]
        simp only [lookupNode]
        rw [level_find_old_none fails ch hnd r hr]
    · obtain ⟨c, hcm, hfd, hd, m, hm, hme⟩ :=
        passAList_flatten_rmap_mem fails (levelRenames fails ch) ch e he
      have hwfc2 : wfTree c.2 = true := wfChildren_mem ch c hwfc hcm
      have hih := ihch c hcm (fun pp => fails (c.1 :: pp)) hwfc2 m hm
      have hfind := level_find_unrenamed fails ch hnd c hcm hfd
      have hak : applyChild fails (levelRenames fails ch) c
          = (c.1, (passANode (fun pp => fails (c.1 :: pp)) c.2).tree) := by
        unfold applyChild
        rw [hfd, if_pos hd]
      rw [hme]
      simp only [List.cons_append]
      refine ⟨?_, ?_⟩
      · show lookupNode (.dir ((passAList fails (levelRenames fails ch) ch).map
          (fun s => s.1))) (c.1 :: (m.1 ++ [m.2.2]))
          = lookupNode (.dir ch) (c.1 :: (m.1 ++ [m.2.1]))
        rw [htree]
        simp only [lookupNode]
        rw [hfind, find?_child ch hnd c hcm, hak]
        exact hih.1
      · show lookupNode (.dir ((passAList fails (levelRenames fails ch) ch).map
          (fun s => s.1))) (c.1 :: (m.1 ++ [m.2.1])) = none
        rw [htree]
        simp only [lookupNode]
        rw [hfind, hak]
        exact hih.2

/-- Witness for C10: renaming `AC001` to `1` moves its whole subtree
intact and removes the old name. -/
theorem C10_witness :
    lookupNode (passANode noFail (.dir [("AC001",
        FSNode.dir [("inner", FSNode.dir []), ("f.txt", FSNode.file [3])])])).tree ["1"]
      = lookupNode (.dir [("AC001",
        FSNode.dir [("inner", FSNode.dir []), ("f.txt", FSNode.file [3])])]) ["AC001"]
    ∧ lookupNode (passANode noFail (.dir [("AC001",
        FSNode.dir [("inner", FSNode.dir []), ("f.txt", FSNode.file [3])])])).tree ["AC001"]
      = none := by
  have := C10_renamed_subtree_preserved
    (.dir [("AC001", FSNode.dir [("inner", FSNode.dir []), ("f.txt", FSNode.file [3])])])
    noFail (by decide) ([], "AC001", "1") (by decide)
  simpa using this

/-- Whether `q` lies strictly below `p` in the tree (p is a proper
ancestor path of q). -/
def strictUnderB : List String → List String → Bool
  | [], [] => false
  | [], _ :: _ => true
  | _ :: _, [] => false
  | a :: as, b :: bs => a == b && strictUnderB as bs

/-- The tree path of a logged Pass A action. -/
def aPath (a : AAction) : List String := a.pref ++ [a.old]

theorem strictUnderB_single (x y : String) : strictUnderB [x] [y] = false := by
  simp [strictUnderB]

theorem strictUnderB_single_cons (x y : String) (ys : List String) :
    strictUnderB [x] (y :: ys) = (x == y && (ys.isEmpty == false)) := by
  cases ys with
  | nil => simp [strictUnderB]
  | cons z zs => simp [strictUnderB]

theorem strictUnderB_cons_cons (x y : String) (xs ys : List String) :
    strictUnderB (x :: xs) (y :: ys) = (x == y && strictUnderB xs ys) := rfl

theorem strictUnderB_cons_nil (x : String) (xs : List String) :
    strictUnderB (x :: xs) [] = false := rfl

/-- The level log actions of a listing have pairwise distinct paths. -/
theorem levelLog_paths_nodup (fails : List String → Bool)
    (ch : List (String × FSNode)) (hnd : nodupKeys ch = true) :
    ((levelLog fails ch).map aPath).Nodup := by
  have holds : ((levelLog fails ch).map (fun a => a.old)).Nodup :=
    renameLoop_log_olds_nodup _ _ _ (dirNamesOf_nodup ch hnd)
  have hl : (levelLog fails ch).Nodup := holds.of_map
  apply hl.map_on
  intro a ha b hb he
  have hpa := (renameLoop_log_mem _ _ _ a ha).1
  have hpb := (renameLoop_log_mem _ _ _ b hb).1
  unfold aPath at he
  rw [hpa, hpb] at he
  simp only [List.nil_append, List.cons.injEq] at he
  exact List.inj_on_of_nodup_map holds ha hb he.1

/-- Paths of actions collected from the subtrees are pairwise distinct,
assuming the inductive property for each child. -/
theorem passAList_log_paths_nodup (fails : List String → Bool)
    (rs : List (String × String)) :
    ∀ (cs : List (String × FSNode)), (keysOf cs).Nodup →
    (∀ c ∈ cs, ∀ (fails' : List String → Bool),
      ((passANode fails' c.2).log.map aPath).Nodup) →
    ((((passAList fails rs cs).map (fun s => s.2.2)).flatten).map aPath).Nodup := by
  intro cs
  induction cs with
  | nil => intro _ _; rw [passAList_nil]; simp
  | cons c cs' ih =>
    intro hkeys hch
    have hkeys' : (keysOf cs').Nodup := by
      unfold keysOf at hkeys ⊢
      exact (List.nodup_cons.mp (by simpa using hkeys)).2
    have hknot : c.1 ∉ keysOf cs' := by
      unfold keysOf
      have := (List.nodup_cons.mp (show (c.1 :: cs'.map (fun d => d.1)).Nodup by
        simpa [keysOf] using hkeys)).1
      exact this
    have hch' : ∀ c' ∈ cs', ∀ (fails' : List String → Bool),
        ((passANode fails' c'.2).log.map aPath).Nodup :=
      fun c' hc' => hch c' (List.mem_cons_of_mem _ hc')
    have ihr := ih hkeys' hch'
    rcases hfd : rs.find? (fun r => r.1 == c.1) with _ | r
    · by_cases hd : c.2.isDir
      · rw [passAList_cons_dir fails rs c cs' hfd hd]
        simp only [List.map_cons, List.flatten_cons, List.map_append]
        rw [List.nodup_append]
        refine ⟨?_, ihr, ?_⟩
        · rw [List.map_map]
          have hfeq : (aPath ∘ fun a => AAction.mk (c.1 :: a.pref) a.old a.tgt a.status)
              = fun a => c.1 :: aPath a := rfl
          rw [hfeq]
          have := hch c (List.mem_cons_self _ _) (fun pp => fails (c.1 :: pp))
          rw [show (fun a => c.1 :: aPath a)
              = (fun p => c.1 :: p) ∘ aPath from rfl, ← List.map_map]
          exact this.map (fun p q hpq => by simpa using hpq)
        · intro p hp hq
          rw [List.map_map] at hp
          obtain ⟨a0, -, hae⟩ := List.mem_map.mp hp
          obtain ⟨a1, ha1, hbe⟩ := List.mem_map.mp hq
          obtain ⟨c0, hc0, -, -, a2, -, ha2e⟩ :=
            passAList_flatten_log_mem fails rs cs' a1 ha1
          rw [← hae] at hbe
          rw [ha2e] at hbe
          simp only [Function.comp, aPath, List.cons_append, List.cons.injEq] at hbe
          exact hknot (hbe.1 ▸ List.mem_map.mpr ⟨c0, hc0, rfl⟩)
      · rw [passAList_cons_keep fails rs c cs' hfd (Bool.not_eq_true _ ▸ hd)]
        simpa using ihr
    · rw [passAList_cons_renamed fails rs c cs' r hfd]
      simpa using ihr

/-- No directory is the subject of two Pass A log actions. -/
theorem passANode_log_paths_nodup : ∀ (t : FSNode) (fails : List String → Bool),
    wfTree t = true → ((passANode fails t).log.map aPath).Nodup := by
  intro t
  induction t using FSNode.inductionOn with
  | hf b => intro fails _; rw [passANode_file]; simp
  | hd ch ihch =>
    intro fails hwf
    obtain ⟨hnd, hwfc⟩ := (wfTree_dir ch).mp hwf
    rw [passANode_dir]
    simp only [List.map_append]
    rw [List.nodup_append]
    refine ⟨levelLog_paths_nodup fails ch hnd, ?_, ?_⟩
    · exact passAList_log_paths_nodup fails (levelRenames fails ch) ch
        ((nodupKeys_iff ch).mp hnd)
        (fun c hc fails' => ihch c hc fails' (wfChildren_mem ch c hwfc hc))
    · intro p hp hq
      obtain ⟨a, ha, hae⟩ := List.mem_map.mp hp
      obtain ⟨a1, ha1, hbe⟩ := List.mem_map.mp hq
      obtain ⟨c0, -, -, -, a2, -, ha2e⟩ :=
        passAList_flatten_log_mem fails (levelRenames fails ch) ch a1 ha1
      have hpa := (renameLoop_log_mem _ _ _ a ha).1
      rw [← hae] at hbe
      rw [ha2e] at hbe
      simp only [aPath, hpa, List.nil_append, List.cons_append, List.cons.injEq] at hbe
      exact absurd hbe.2.symm (by simp)


theorem strictUnderB_nil_right (p : List String) : strictUnderB p [] = false := by
  cases p <;> rfl

/-- No Pass A action is logged at or below a renamed folder's new
path, and none strictly below its old path: a renamed directory is
neither revisited nor traversed into in the same pass. -/
theorem passANode_no_reprocess : ∀ (t : FSNode) (fails : List String → Bool),
    wfTree t = true → ∀ e ∈ (passANode fails t).rmap, ∀ a ∈ (passANode fails t).log,
    strictUnderB (e.1 ++ [e.2.1]) (aPath a) = false
    ∧ aPath a ≠ e.1 ++ [e.2.2]
    ∧ strictUnderB (e.1 ++ [e.2.2]) (aPath a) = false := by
  intro t
  induction t using FSNode.inductionOn with
  | hf b =>
    intro fails _ e he
    rw [passANode_file] at he
    simp at he
  | hd ch ihch =>
    intro fails hwf e he a ha
    obtain ⟨hnd, hwfc⟩ := (wfTree_dir ch).mp hwf
    rw [passANode_dir] at he ha
    simp only [List.mem_append] at he ha
    rcases he with he | he
    · obtain ⟨r, hr, hre⟩ := List.mem_map.mp he
      obtain ⟨-, hsh⟩ := renameLoop_rmap_mem _ _ _ r.1 r.2 hr
      have hoAC : upperStartsWithAC r.1 = true := (acNewName_shape r.1 r.2 hsh).1
      have hnAC : upperStartsWithAC r.2 = false := acNewName_tgt_not_AC r.1 r.2 hsh
      have hnfresh : r.2 ∉ keysOf ch := ((levelRenames_facts fails ch hnd).1 r hr).2.1
      rw [← hre]
      simp only [List.nil_append]
      rcases ha with ha | ha
      · have hpa := (renameLoop_log_mem _ _ _ a ha).1
        have hash := (renameLoop_log_mem _ _ _ a ha).2.2
        have haAC : upperStartsWithAC a.old = true := (acNewName_shape _ _ hash).1
        refine ⟨?_, ?_, ?_⟩
        · simp [aPath, hpa, strictUnderB_single]
        · simp only [aPath, hpa, List.nil_append, ne_eq, List.cons.injEq, and_true]
          intro hecon
          rw [hecon, hnAC] at haAC
          exact Bool.noConfusion haAC
        · simp [aPath, hpa, strictUnderB_single]
      · obtain ⟨c', hc', hfd', hd', a0, ha0, ha0e⟩ :=
          passAList_flatten_log_mem fails (levelRenames fails ch) ch a ha
        have hone : r.1 ≠ c'.1 := by
          intro heq
          have hself := levelRenames_find_self fails ch hnd r hr
          rw [heq] at hself
          rw [hself] at hfd'
          exact Option.noConfusion hfd'
        have hkc' : c'.1 ∈ keysOf ch := List.mem_map.mpr ⟨c', hc', rfl⟩
        have hner : r.2 ≠ c'.1 := fun heq => hnfresh (heq ▸ hkc')
        refine ⟨?_, ?_, ?_⟩
        · rw [ha0e]
          simp only [aPath, List.cons_append, strictUnderB_single_cons]
          simp [hone]
        · rw [ha0e]
          simp only [aPath, List.cons_append, ne_eq, List.cons.injEq, not_and]
          intro h
          exact absurd h hner.symm
        · rw [ha0e]
          simp only [aPath, List.cons_append, strictUnderB_single_cons]
          simp [hner]
    · obtain ⟨c, hcm, hfd, hd, m, hm, hme⟩ :=
        passAList_flatten_rmap_mem fails (levelRenames fails ch) ch e he
      rw [hme]
      simp only [List.cons_append]
      rcases ha with ha | ha
      · have hpa := (renameLoop_log_mem _ _ _ a ha).1
        refine ⟨?_, ?_, ?_⟩
        · simp [aPath, hpa, strictUnderB_cons_cons, strictUnderB_nil_right]
        · simp only [aPath, hpa, List.nil_append, ne_eq, List.cons.injEq]
          intro h
          exact absurd h.2.symm (by simp)
        · simp [aPath, hpa, strictUnderB_cons_cons, strictUnderB_nil_right]
      · obtain ⟨c', hc', hfd', hd', a0, ha0, ha0e⟩ :=
          passAList_flatten_log_mem fails (levelRenames fails ch) ch a ha
        by_cases hcc : c.1 = c'.1
        · have hce : c' = c := key_inj ch hnd c c' hcm hc' hcc.symm
          subst hce
          have hih := ihch c' hcm (fun pp => fails (c'.1 :: pp))
            (wfChildren_mem ch c' hwfc hcm) m hm a0 ha0
          have h1 := hih.1
          have h2 := hih.2.1
          have h3 := hih.2.2
          simp only [aPath] at h1 h2 h3
          refine ⟨?_, ?_, ?_⟩
          · rw [ha0e]
            simp only [aPath, List.cons_append, strictUnderB_cons_cons]
            simp [h1]
          · rw [ha0e]
            simp only [aPath, List.cons_append, ne_eq, List.cons.injEq, not_and]
            intro _
            exact h2
          · rw [ha0e]
            simp only [aPath, List.cons_append, strictUnderB_cons_cons]
            simp [h3]
        · have hbe : c'.1 ≠ c.1 := fun h => hcc h.symm
          refine ⟨?_, ?_, ?_⟩
          · rw [ha0e]
            simp only [aPath, List.cons_append, strictUnderB_cons_cons]
            simp [hcc]
          · rw [ha0e]
            simp only [aPath, List.cons_append, ne_eq, List.cons.injEq, not_and]
            intro h
            exact absurd h hbe
          · rw [ha0e]
            simp only [aPath, List.cons_append, strictUnderB_cons_cons]
            simp [hcc]

/-- C7: during Pass A, no directory is processed twice for the prefix
rule (every logged action has a distinct path), and the walk never
descends into a renamed directory under its old name — nor visits or
descends into its new name. -/
theorem C7_no_revisit (fails : List String → Bool) (t : FSNode)
    (hwf : wfTree t = true) :
    ((passANode fails t).log.map aPath).Nodup
    ∧ (∀ e ∈ (passANode fails t).rmap, ∀ a ∈ (passANode fails t).log,
        strictUnderB (e.1 ++ [e.2.1]) (aPath a) = false
        ∧ aPath a ≠ e.1 ++ [e.2.2]
        ∧ strictUnderB (e.1 ++ [e.2.2]) (aPath a) = false) :=
  ⟨passANode_log_paths_nodup t fails hwf, passANode_no_reprocess t fails hwf⟩

/-- Witness for C7 on a tree with a nested `AC` folder and a sibling
branch. -/
theorem C7_witness :
    ((passANode noFail (.dir [("AC001", FSNode.dir [("AC002", FSNode.dir [])]),
        ("b", FSNode.dir [("AC003", FSNode.dir [])])])).log.map aPath).Nodup
    ∧ (∀ e ∈ (passANode noFail (.dir [("AC001", FSNode.dir [("AC002", FSNode.dir [])]),
        ("b", FSNode.dir [("AC003", FSNode.dir [])])])).rmap,
        ∀ a ∈ (passANode noFail (.dir [("AC001", FSNode.dir [("AC002", FSNode.dir [])]),
        ("b", FSNode.dir [("AC003", FSNode.dir [])])])).log,
        strictUnderB (e.1 ++ [e.2.1]) (aPath a) = false
        ∧ aPath a ≠ e.1 ++ [e.2.2]
        ∧ strictUnderB (e.1 ++ [e.2.2]) (aPath a) = false) :=
  C7_no_revisit noFail
    (.dir [("AC001", FSNode.dir [("AC002", FSNode.dir [])]),
           ("b", FSNode.dir [("AC003", FSNode.dir [])])]) (by decide)

/-! The repackage/extract round trip (claim C5). -/

/-- The file children of a listing, with their bytes. -/
def filesOf (ch : List (String × FSNode)) : List (String × List Nat) :=
  ch.filterMap (fun c =>
    match c.2 with
    | .file b => some (c.1, b)
    | .dir _ => none)

theorem filesOf_mem (ch : List (String × FSNode)) (x : String) (b : List Nat) :
    (x, b) ∈ filesOf ch ↔ (x, FSNode.file b) ∈ ch := by
  induction ch with
  | nil => simp [filesOf]
  | cons c cs ih =>
    unfold filesOf at ih ⊢
    cases hc : c.2 with
    | file bb =>
      simp only [List.filterMap_cons, hc, List.mem_cons, ih]
      constructor
      · rintro (h | h)
        · rw [Prod.mk.injEq] at h
          refine Or.inl ?_
          have : c = (c.1, c.2) := rfl
          rw [this, hc, ← h.1, ← h.2]
        · exact Or.inr h
      · rintro (h | h)
        · refine Or.inl ?_
          have : c = (c.1, c.2) := rfl
          rw [this, hc] at h
          rw [Prod.mk.injEq] at h
          rw [Prod.mk.injEq]
          exact ⟨h.1, FSNode.file.injEq _ _ ▸ h.2⟩
        · exact Or.inr h
    | dir cc =>
      simp only [List.filterMap_cons, hc, List.mem_cons, ih]
      constructor
      · exact Or.inr
      · rintro (h | h)
        · have : c = (c.1, c.2) := rfl
          rw [this, hc] at h
          rw [Prod.mk.injEq] at h
          exact absurd h.2 (by simp)
        · exact h

theorem zipChildren_mem (cs : List (String × FSNode))
    (e : List String × List Nat) :
    e ∈ zipChildren cs ↔ ∃ c ∈ cs, ∃ e0 ∈ zipEntries c.2,
      e = (c.1 :: e0.1, e0.2) := by
  induction cs with
  | nil => simp [zipChildren]
  | cons c cs' ih =>
    show e ∈ (zipEntries c.2).map (fun e => (c.1 :: e.1, e.2)) ++ zipChildren cs' ↔ _
    rw [List.mem_append, ih]
    constructor
    · rintro (h | h)
      · obtain ⟨e0, he0, hee⟩ := List.mem_map.mp h
        exact ⟨c, List.mem_cons_self _ _, e0, he0, hee.symm⟩
      · obtain ⟨c0, hc0, e0, he0, hee⟩ := h
        exact ⟨c0, List.mem_cons_of_mem _ hc0, e0, he0, hee⟩
    · rintro ⟨c0, hc0, e0, he0, hee⟩
      rcases List.mem_cons.mp hc0 with hc | hc
      · subst hc
        exact Or.inl (List.mem_map.mpr ⟨e0, he0, hee.symm⟩)
      · exact Or.inr ⟨c0, hc, e0, he0, hee⟩

theorem zipEntries_dir_eq (ch : List (String × FSNode)) :
    zipEntries (.dir ch)
      = (filesOf ch).map (fun p => ([p.1], p.2)) ++ zipChildren ch := by
  show ch.filterMap (fun c =>
      match c.2 with
      | .file b => some ([c.1], b)
      | .dir _ => none) ++ zipChildren ch = _
  congr 1
  unfold filesOf
  rw [List.map_filterMap]
  apply List.filterMap_congr
  intro c _
  cases c.2 <;> rfl

theorem canon_dir_eq (ch : List (String × FSNode)) :
    canon (.dir ch)
      = .dir ((filesOf ch).map (fun p => (p.1, FSNode.file p.2)) ++ canonChildren ch) := by
  show FSNode.dir (ch.filterMap (fun c =>
      match c.2 with
      | .file b => some (c.1, FSNode.file b)
      | .dir _ => none) ++ canonChildren ch) = _
  congr 1
  congr 1
  unfold filesOf
  rw [List.map_filterMap]
  apply List.filterMap_congr
  intro c _
  cases c.2 <;> rfl

theorem zip_paths_nonempty (t : FSNode) (e : List String × List Nat)
    (he : e ∈ zipEntries t) : e.1 ≠ [] := by
  cases t with
  | file b => simp [zipEntries] at he
  | dir ch =>
    rw [zipEntries_dir_eq] at he
    rcases List.mem_append.mp he with h | h
    · obtain ⟨p, -, hpe⟩ := List.mem_map.mp h
      rw [← hpe]
      simp
    · obtain ⟨c, -, e0, -, hee⟩ := (zipChildren_mem ch e).mp h
      rw [hee]
      simp

theorem extractFold_nil (t : FSNode) : extractFold t [] = t := rfl

theorem extractFold_cons (t : FSNode) (e : List String × List Nat)
    (es : List (List String × List Nat)) :
    extractFold t (e :: es) = extractFold (insertPath t e.1 e.2) es := rfl

theorem extractFold_append (t : FSNode) (es1 es2 : List (List String × List Nat)) :
    extractFold t (es1 ++ es2) = extractFold (extractFold t es1) es2 := by
  unfold extractFold
  rw [List.foldl_append]

theorem insertPath_single_absent (ch : List (String × FSNode)) (n : String)
    (b : List Nat) (h : ∀ c ∈ ch, c.1 ≠ n) :
    insertPath (.dir ch) [n] b = .dir (ch ++ [(n, .file b)]) := by
  unfold insertPath
  rw [if_neg]
  intro hany
  rw [List.any_eq_true] at hany
  obtain ⟨c, hc, hcn⟩ := hany
  exact h c hc (by simpa using hcn)

theorem insertPath_deep_present (ch : List (String × FSNode)) (n m : String)
    (rest : List String) (b : List Nat) (e : String × FSNode)
    (hfd : ch.find? (fun c => c.1 == n) = some e) :
    insertPath (.dir ch) (n :: m :: rest) b
      = .dir (ch.map (fun c => if c.1 == n then (n, insertPath e.2 (m :: rest) b) else c)) := by
  rw [insertPath.eq_def]
  simp only [hfd]

theorem insertPath_deep_absent (ch : List (String × FSNode)) (n m : String)
    (rest : List String) (b : List Nat)
    (hfd : ch.find? (fun c => c.1 == n) = none) :
    insertPath (.dir ch) (n :: m :: rest) b
      = .dir (ch ++ [(n, insertPath (.dir []) (m :: rest) b)]) := by
  rw [insertPath.eq_def]
  simp only [hfd]

/-- Extracting the file entries of one level appends the files. -/
theorem extractFold_files : ∀ (ents : List (String × List Nat))
    (ch0 : List (String × FSNode)),
    (∀ p ∈ ents, p.1 ∉ keysOf ch0) → (ents.map (fun p => p.1)).Nodup →
    extractFold (.dir ch0) (ents.map (fun p => ([p.1], p.2)))
      = .dir (ch0 ++ ents.map (fun p => (p.1, FSNode.file p.2))) := by
  intro ents
  induction ents with
  | nil => intro ch0 _ _; simp [extractFold_nil]
  | cons p ps ih =>
    intro ch0 hfresh hnd
    simp only [List.map_cons, extractFold_cons]
    rw [insertPath_single_absent ch0 p.1 p.2]
    · rw [ih (ch0 ++ [(p.1, FSNode.file p.2)])]
      · simp
      · intro q hq
        unfold keysOf
        simp only [List.map_append, List.mem_append]
        rintro (h | h)
        · exact hfresh q (List.mem_cons_of_mem _ hq) h
        · simp only [List.map_cons, List.map_nil, List.mem_singleton] at h
          rw [List.map_cons, List.nodup_cons] at hnd
          exact hnd.1 (h ▸ List.mem_map.mpr ⟨q, hq, rfl⟩)
      · rw [List.map_cons, List.nodup_cons] at hnd
        exact hnd.2
    · intro c hc he
      exact hfresh p (List.mem_cons_self _ _) (he ▸ List.mem_map.mpr ⟨c, hc, rfl⟩)

theorem keysOf_map_preserve (ch : List (String × FSNode))
    (g : String × FSNode → String × FSNode) (h : ∀ c ∈ ch, (g c).1 = c.1) :
    keysOf (ch.map g) = keysOf ch := by
  unfold keysOf
  rw [List.map_map]
  exact List.map_congr_left h

/-- Folding the entries of one subdirectory, when the subdirectory
already exists, rebuilds it in place. -/
theorem extractFold_prefixed_present : ∀ (es : List (List String × List Nat))
    (ch0 : List (String × FSNode)) (n : String) (u : FSNode),
    nodupKeys ch0 = true → (n, u) ∈ ch0 → (∀ e ∈ es, e.1 ≠ []) →
    extractFold (.dir ch0) (es.map (fun e => (n :: e.1, e.2)))
      = .dir (ch0.map (fun c => if c.1 == n then (n, extractFold u es) else c)) := by
  intro es
  induction es with
  | nil =>
    intro ch0 n u hnd hmem _
    rw [List.map_nil, extractFold_nil]
    congr 1
    symm
    rw [show ch0.map (fun c => if c.1 == n then (n, extractFold u []) else c)
        = ch0.map (fun c => if c.1 == n then (n, u) else c) from rfl]
    have : ∀ c ∈ ch0, (if c.1 == n then ((n : String), u) else c) = c := by
      intro c hc
      by_cases hk : c.1 = n
      · rw [if_pos (by simp [hk])]
        exact (key_inj ch0 hnd (n, u) c hmem hc hk).symm ▸ rfl
      · rw [if_neg (by simp [hk])]
    rw [List.map_congr_left this]
    simp
  | cons e es' ih =>
    intro ch0 n u hnd hmem hne
    rcases hp : e.1 with _ | ⟨x, xs⟩
    · exact absurd hp (hne e (List.mem_cons_self _ _))
    · simp only [List.map_cons, extractFold_cons]
      have hfd : ch0.find? (fun c => c.1 == n) = some (n, u) :=
        find?_key_unique (n, u) ch0 hmem
          (fun c' hc' he => key_inj ch0 hnd (n, u) c' hmem hc' he)
      rw [hp, insertPath_deep_present ch0 n x xs e.2 (n, u) hfd]
      set g := fun c : String × FSNode =>
        if c.1 == n then ((n : String), insertPath u (x :: xs) e.2) else c with hg
      have hgk : ∀ c ∈ ch0, (g c).1 = c.1 := by
        intro c hc
        rw [hg]
        by_cases hk : c.1 = n
        · simp [hk]
        · simp [hk]
      have hnd1 : nodupKeys (ch0.map g) = true := by
        rw [nodupKeys_iff, keysOf_map_preserve ch0 g hgk]
        exact (nodupKeys_iff ch0).mp hnd
      have hmem1 : (n, insertPath u (x :: xs) e.2) ∈ ch0.map g := by
        refine List.mem_map.mpr ⟨(n, u), hmem, ?_⟩
        rw [hg]
        simp
      have hne' : ∀ e0 ∈ es', e0.1 ≠ [] :=
        fun e0 he0 => hne e0 (List.mem_cons_of_mem _ he0)
      rw [ih (ch0.map g) n (insertPath u (x :: xs) e.2) hnd1 hmem1 hne']
      congr 1
      rw [List.map_map]
      apply List.map_congr_left
      intro c hc
      by_cases hk : c.1 = n
      · simp only [Function.comp, hg, hk, beq_self_eq_true, if_true]
      · simp [Function.comp, hg, hk]

/-- Folding the entries of one new subdirectory appends it, fully
rebuilt, at the end of the listing. -/
theorem extractFold_prefixed_absent (es : List (List String × List Nat))
    (ch0 : List (String × FSNode)) (n : String)
    (hnd : nodupKeys ch0 = true) (hfresh : n ∉ keysOf ch0)
    (hnee : es ≠ []) (hne : ∀ e ∈ es, e.1 ≠ []) :
    extractFold (.dir ch0) (es.map (fun e => (n :: e.1, e.2)))
      = .dir (ch0 ++ [(n, extractFold (.dir []) es)]) := by
  rcases es with _ | ⟨e, es'⟩
  · exact absurd rfl hnee
  · rcases hp : e.1 with _ | ⟨x, xs⟩
    · exact absurd hp (hne e (List.mem_cons_self _ _))
    · simp only [List.map_cons, extractFold_cons]
      have hfd : ch0.find? (fun c => c.1 == n) = none :=
        find?_key_none n ch0
          (fun c hc he => hfresh (he ▸ List.mem_map.mpr ⟨c, hc, rfl⟩))
      rw [hp, insertPath_deep_absent ch0 n x xs e.2 hfd]
      have hnd1 : nodupKeys (ch0 ++ [(n, insertPath (.dir []) (x :: xs) e.2)]) = true := by
        rw [nodupKeys_iff]
        unfold keysOf
        rw [List.map_append]
        rw [List.nodup_append]
        refine ⟨(nodupKeys_iff ch0).mp hnd, by simp, ?_⟩
        intro y hy hz
        simp only [List.map_cons, List.map_nil, List.mem_singleton] at hz
        exact hfresh (hz ▸ hy)
      have hmem1 : ((n : String), insertPath (.dir []) (x :: xs) e.2)
          ∈ ch0 ++ [(n, insertPath (.dir []) (x :: xs) e.2)] := by
        simp
      have hne' : ∀ e0 ∈ es', e0.1 ≠ [] :=
        fun e0 he0 => hne e0 (List.mem_cons_of_mem _ he0)
      rw [extractFold_prefixed_present es' _ n (insertPath (.dir []) (x :: xs) e.2)
        hnd1 hmem1 hne']
      congr 1
      rw [List.map_append]
      have hch0 : ch0.map (fun c => if c.1 == n
          then ((n : String), extractFold (insertPath (.dir []) (x :: xs) e.2) es') else c)
          = ch0 := by
        have : ∀ c ∈ ch0, (if c.1 == n
            then ((n : String), extractFold (insertPath (.dir []) (x :: xs) e.2) es') else c)
            = c := by
          intro c hc
          rw [if_neg]
          intro he
          exact hfresh ((by simpa using he : c.1 = n) ▸ List.mem_map.mpr ⟨c, hc, rfl⟩)
        rw [List.map_congr_left this]
        simp
      rw [hch0]
      simp only [List.map_cons, List.map_nil, beq_self_eq_true, if_true]

theorem zipChildren_cons (c : String × FSNode) (cs : List (String × FSNode)) :
    zipChildren (c :: cs)
      = (zipEntries c.2).map (fun e => (c.1 :: e.1, e.2)) ++ zipChildren cs := rfl

theorem zipEntries_file (b : List Nat) : zipEntries (.file b) = [] := by
  simp [zipEntries]

theorem canonChildren_nil : canonChildren [] = [] := by
  simp [canonChildren]

theorem canonChildren_cons_file (c : String × FSNode)
    (cs : List (String × FSNode)) (b : List Nat) (h : c.2 = .file b) :
    canonChildren (c :: cs) = canonChildren cs := by
  rw [canonChildren.eq_def]
  simp only [h]

theorem canonChildren_cons_dir_drop (c : String × FSNode)
    (cs : List (String × FSNode)) (ch' : List (String × FSNode))
    (h : c.2 = .dir ch') (hz : (zipEntries c.2).isEmpty = true) :
    canonChildren (c :: cs) = canonChildren cs := by
  rw [canonChildren.eq_def]
  simp only [h]
  rw [← h, hz]
  simp

theorem canonChildren_cons_dir_keep (c : String × FSNode)
    (cs : List (String × FSNode)) (ch' : List (String × FSNode))
    (h : c.2 = .dir ch') (hz : (zipEntries c.2).isEmpty = false) :
    canonChildren (c :: cs) = (c.1, canon c.2) :: canonChildren cs := by
  rw [canonChildren.eq_def]
  simp only [h]
  rw [← h, hz]
  simp

/-- Folding the subdirectory blocks appends each file-carrying
subdirectory, fully rebuilt, in listing order. -/
theorem extractFold_blocks : ∀ (cs : List (String × FSNode))
    (ch0 : List (String × FSNode)),
    nodupKeys ch0 = true → (keysOf cs).Nodup →
    (∀ c ∈ cs, c.2.isDir = true → c.1 ∉ keysOf ch0) →
    (∀ c ∈ cs, ∀ ch', c.2 = .dir ch' → extractTree (zipEntries c.2) = canon c.2) →
    extractFold (.dir ch0) (zipChildren cs) = .dir (ch0 ++ canonChildren cs) := by
  intro cs
  induction cs with
  | nil =>
    intro ch0 _ _ _ _
    show extractFold (.dir ch0) [] = _
    rw [extractFold_nil, canonChildren_nil]
    simp
  | cons c cs' ih =>
    intro ch0 hnd0 hkeys hfresh hIH
    have hkeys' : (keysOf cs').Nodup := by
      unfold keysOf at hkeys ⊢
      exact (List.nodup_cons.mp (by simpa using hkeys)).2
    have hkc : c.1 ∉ keysOf cs' := by
      unfold keysOf
      exact (List.nodup_cons.mp (show (c.1 :: cs'.map (fun d => d.1)).Nodup by
        simpa [keysOf] using hkeys)).1
    have hfresh' : ∀ c' ∈ cs', c'.2.isDir = true → c'.1 ∉ keysOf ch0 :=
      fun c' hc' hd' => hfresh c' (List.mem_cons_of_mem _ hc') hd'
    have hIH' : ∀ c' ∈ cs', ∀ ch', c'.2 = .dir ch' →
        extractTree (zipEntries c'.2) = canon c'.2 :=
      fun c' hc' => hIH c' (List.mem_cons_of_mem _ hc')
    rw [zipChildren_cons]
    cases hc2 : c.2 with
    | file b =>
      rw [zipEntries_file]
      simp only [List.map_nil, List.nil_append]
      rw [ih ch0 hnd0 hkeys' hfresh' hIH', canonChildren_cons_file c cs' b hc2]
    | dir ch' =>
      rw [show zipEntries (FSNode.dir ch') = zipEntries c.2 from by rw [hc2]]
      rcases hz : zipEntries c.2 with _ | ⟨e0, es0⟩
      · simp only [List.map_nil, List.nil_append]
        rw [ih ch0 hnd0 hkeys' hfresh' hIH',
          canonChildren_cons_dir_drop c cs' ch' hc2 (by rw [hz]; rfl)]
      · rw [← hz, extractFold_append]
        have hdir : c.2.isDir = true := by rw [hc2]; rfl
        have habs := extractFold_prefixed_absent (zipEntries c.2) ch0 c.1 hnd0
          (hfresh c (List.mem_cons_self _ _) hdir) (by rw [hz]; simp)
          (fun e he => zip_paths_nonempty c.2 e he)
        rw [habs]
        have hcanon : extractFold (.dir []) (zipEntries c.2) = canon c.2 :=
          hIH c (List.mem_cons_self _ _) ch' hc2
        rw [hcanon]
        have hnd1 : nodupKeys (ch0 ++ [(c.1, canon c.2)]) = true := by
          rw [nodupKeys_iff]
          unfold keysOf
          rw [List.map_append, List.nodup_append]
          refine ⟨(nodupKeys_iff ch0).mp hnd0, by simp, ?_⟩
          intro y hy hz2
          simp only [List.map_cons, List.map_nil, List.mem_singleton] at hz2
          exact hfresh c (List.mem_cons_self _ _) hdir (hz2 ▸ hy)
        have hfresh1 : ∀ c' ∈ cs', c'.2.isDir = true →
            c'.1 ∉ keysOf (ch0 ++ [(c.1, canon c.2)]) := by
          intro c' hc' hd'
          unfold keysOf
          rw [List.map_append, List.mem_append]
          rintro (h | h)
          · exact hfresh' c' hc' hd' h
          · simp only [List.map_cons, List.map_nil, List.mem_singleton] at h
            exact hkc (h ▸ List.mem_map.mpr ⟨c', hc', rfl⟩)
        rw [ih (ch0 ++ [(c.1, canon c.2)]) hnd1 hkeys' hfresh1 hIH']
        rw [canonChildren_cons_dir_keep c cs' ch' hc2 (by rw [hz]; rfl)]
        simp

theorem filesOf_keys_sublist (ch : List (String × FSNode)) :
    ((filesOf ch).map (fun p => p.1)).Sublist (keysOf ch) := by
  induction ch with
  | nil => simp [filesOf, keysOf]
  | cons c cs ih =>
    unfold filesOf keysOf at ih ⊢
    cases hc : c.2 with
    | file b =>
      simp only [List.filterMap_cons, hc, List.map_cons]
      exact ih.cons₂ c.1
    | dir cc =>
      simp only [List.filterMap_cons, hc, List.map_cons]
      exact ih.cons c.1

/-- Re-extracting a repackaged directory yields its canonical form:
files first, then the file-carrying subdirectories, recursively. -/
theorem extract_zip_eq_canon : ∀ (t : FSNode), wfTree t = true →
    ∀ ch, t = .dir ch → extractTree (zipEntries t) = canon t := by
  intro t
  induction t using FSNode.inductionOn with
  | hf b => intro _ ch h; exact FSNode.noConfusion h
  | hd ch ihch =>
    intro hwf _ _
    obtain ⟨hnd, hwfc⟩ := (wfTree_dir ch).mp hwf
    have hknd : (keysOf ch).Nodup := (nodupKeys_iff ch).mp hnd
    rw [zipEntries_dir_eq]
    unfold extractTree
    rw [extractFold_append]
    have hfnd : ((filesOf ch).map (fun p => p.1)).Nodup :=
      (filesOf_keys_sublist ch).nodup hknd
    rw [show extractFold (.dir []) ((filesOf ch).map (fun p => ([p.1], p.2)))
        = .dir ([] ++ (filesOf ch).map (fun p => (p.1, FSNode.file p.2))) from
      extractFold_files (filesOf ch) [] (by simp [keysOf]) hfnd]
    rw [List.nil_append]
    have hkfiles : keysOf ((filesOf ch).map (fun p => (p.1, FSNode.file p.2)))
        = (filesOf ch).map (fun p => p.1) := by
      unfold keysOf
      rw [List.map_map]
      rfl
    have hndf : nodupKeys ((filesOf ch).map (fun p => (p.1, FSNode.file p.2))) = true := by
      rw [nodupKeys_iff, hkfiles]
      exact hfnd
    have hfreshd : ∀ c ∈ ch, c.2.isDir = true →
        c.1 ∉ keysOf ((filesOf ch).map (fun p => (p.1, FSNode.file p.2))) := by
      intro c hc hd hmem
      rw [hkfiles] at hmem
      obtain ⟨p, hp, hpe⟩ := List.mem_map.mp hmem
      have hpch : (p.1, FSNode.file p.2) ∈ ch := (filesOf_mem ch p.1 p.2).mp hp
      have := key_inj ch hnd c (p.1, FSNode.file p.2) hc hpch (by simpa using hpe)
      rw [← this] at hd
      simp [FSNode.isDir] at hd
    have hIH : ∀ c ∈ ch, ∀ ch', c.2 = .dir ch' →
        extractTree (zipEntries c.2) = canon c.2 := by
      intro c hc ch' hce
      exact ihch c hc (wfChildren_mem ch c hwfc hc) ch' hce
    rw [extractFold_blocks ch _ hndf hknd hfreshd hIH]
    rw [canon_dir_eq]

theorem lookupFile_dir_nil (l : List (String × FSNode)) :
    lookupFile (.dir l) [] = none := rfl

theorem lookupFile_dir_cons_some (l : List (String × FSNode)) (n : String)
    (rest : List String) (c : String × FSNode)
    (hfd : l.find? (fun d => d.1 == n) = some c) :
    lookupFile (.dir l) (n :: rest) = lookupFile c.2 rest := by
  unfold lookupFile
  rw [lookupNode.eq_def]
  simp only [hfd]

theorem lookupFile_dir_cons_none (l : List (String × FSNode)) (n : String)
    (rest : List String)
    (hfd : l.find? (fun d => d.1 == n) = none) :
    lookupFile (.dir l) (n :: rest) = none := by
  unfold lookupFile
  rw [lookupNode.eq_def]
  simp only [hfd]

theorem isDirAt_dir_nil (l : List (String × FSNode)) :
    isDirAt (.dir l) [] = true := rfl

theorem isDirAt_dir_cons_some (l : List (String × FSNode)) (n : String)
    (rest : List String) (c : String × FSNode)
    (hfd : l.find? (fun d => d.1 == n) = some c) :
    isDirAt (.dir l) (n :: rest) = isDirAt c.2 rest := by
  unfold isDirAt
  rw [lookupNode.eq_def]
  simp only [hfd]

theorem isDirAt_dir_cons_none (l : List (String × FSNode)) (n : String)
    (rest : List String)
    (hfd : l.find? (fun d => d.1 == n) = none) :
    isDirAt (.dir l) (n :: rest) = false := by
  unfold isDirAt
  rw [lookupNode.eq_def]
  simp only [hfd]

theorem canonChildren_mem (ch : List (String × FSNode)) (x : String) (v : FSNode) :
    (x, v) ∈ canonChildren ch ↔ ∃ c ∈ ch, ∃ ch'', c.2 = .dir ch''
      ∧ (zipEntries c.2).isEmpty = false ∧ x = c.1 ∧ v = canon c.2 := by
  induction ch with
  | nil => rw [canonChildren_nil]; simp
  | cons c cs ih =>
    cases hc2 : c.2 with
    | file b =>
      rw [canonChildren_cons_file c cs b hc2, ih]
      constructor
      · rintro ⟨c0, hc0, hrest⟩
        exact ⟨c0, List.mem_cons_of_mem _ hc0, hrest⟩
      · rintro ⟨c0, hc0, ch'', hdd, hrest⟩
        rcases List.mem_cons.mp hc0 with he | he
        · subst he; rw [hc2] at hdd; exact FSNode.noConfusion hdd
        · exact ⟨c0, he, ch'', hdd, hrest⟩
    | dir ch' =>
      rcases hz : (zipEntries c.2).isEmpty with _ | _
      · rw [canonChildren_cons_dir_keep c cs ch' hc2 hz]
        rw [List.mem_cons, ih]
        constructor
        · rintro (he | ⟨c0, hc0, hrest⟩)
          · rw [Prod.mk.injEq] at he
            exact ⟨c, List.mem_cons_self _ _, ch', hc2, hz, he.1, he.2⟩
          · exact ⟨c0, List.mem_cons_of_mem _ hc0, hrest⟩
        · rintro ⟨c0, hc0, ch'', hdd, hze, hxe, hve⟩
          rcases List.mem_cons.mp hc0 with he | he
          · subst he
            exact Or.inl (by rw [Prod.mk.injEq]; exact ⟨hxe, hve⟩)
          · exact Or.inr ⟨c0, he, ch'', hdd, hze, hxe, hve⟩
      · rw [canonChildren_cons_dir_drop c cs ch' hc2 hz, ih]
        constructor
        · rintro ⟨c0, hc0, hrest⟩
          exact ⟨c0, List.mem_cons_of_mem _ hc0, hrest⟩
        · rintro ⟨c0, hc0, ch'', hdd, hze, hrest⟩
          rcases List.mem_cons.mp hc0 with he | he
          · subst he
            rw [hze] at hz
            exact Bool.noConfusion hz
          · exact ⟨c0, he, ch'', hdd, hze, hrest⟩

theorem canonChildren_keys_sublist (ch : List (String × FSNode)) :
    (keysOf (canonChildren ch)).Sublist (keysOf ch) := by
  induction ch with
  | nil => rw [canonChildren_nil]
  | cons c cs ih =>
    cases hc2 : c.2 with
    | file b =>
      rw [canonChildren_cons_file c cs b hc2]
      unfold keysOf at ih ⊢
      simp only [List.map_cons]
      exact ih.cons c.1
    | dir ch' =>
      rcases hz : (zipEntries c.2).isEmpty with _ | _
      · rw [canonChildren_cons_dir_keep c cs ch' hc2 hz]
        unfold keysOf at ih ⊢
        simp only [List.map_cons]
        exact ih.cons₂ c.1
      · rw [canonChildren_cons_dir_drop c cs ch' hc2 hz]
        unfold keysOf at ih ⊢
        simp only [List.map_cons]
        exact ih.cons c.1

/-- The keys of the canonical listing are still pairwise distinct. -/
theorem canon_keys_nodup (ch : List (String × FSNode)) (hnd : nodupKeys ch = true) :
    (keysOf ((filesOf ch).map (fun p => (p.1, FSNode.file p.2))
      ++ canonChildren ch)).Nodup := by
  have hknd : (keysOf ch).Nodup := (nodupKeys_iff ch).mp hnd
  unfold keysOf
  rw [List.map_append, List.nodup_append]
  refine ⟨?_, ?_, ?_⟩
  · rw [List.map_map]
    exact (filesOf_keys_sublist ch).nodup hknd
  · exact (canonChildren_keys_sublist ch).nodup hknd
  · intro x hx hy
    rw [List.map_map] at hx
    obtain ⟨p, hp, hpe⟩ := List.mem_map.mp hx
    simp only [Function.comp] at hpe
    obtain ⟨d, hd, hde⟩ := List.mem_map.mp hy
    have hdf : (d.1, d.2) ∈ canonChildren ch := hd
    obtain ⟨c0, hc0, ch'', hdd, -, hxe, -⟩ := (canonChildren_mem ch d.1 d.2).mp hdf
    have hpch : (p.1, FSNode.file p.2) ∈ ch := (filesOf_mem ch p.1 p.2).mp hp
    have hkeq : c0.1 = (p.1, FSNode.file p.2).1 := by
      show c0.1 = p.1
      rw [← hxe, hde, ← hpe]
    have := key_inj ch hnd (p.1, FSNode.file p.2) c0 hpch hc0 hkeq
    rw [this] at hdd
    exact FSNode.noConfusion hdd

/-- A directory whose repackaging produces no entries holds no file at
any path. -/
theorem zip_empty_no_files : ∀ (t : FSNode) (ch : List (String × FSNode)),
    t = .dir ch → zipEntries t = [] → ∀ p, lookupFile t p = none := by
  intro t
  induction t using FSNode.inductionOn with
  | hf b => intro ch h; exact FSNode.noConfusion h
  | hd ch ihch =>
    intro ch0 heq hz p
    have hch0 : ch0 = ch := by
      injection heq.symm
    subst hch0
    rw [zipEntries_dir_eq] at hz
    rw [List.append_eq_nil] at hz
    obtain ⟨hfz, hcz⟩ := hz
    rw [List.map_eq_nil_iff] at hfz
    rcases p with _ | ⟨n, rest⟩
    · exact lookupFile_dir_nil ch0
    · rcases hfd : ch0.find? (fun d => d.1 == n) with _ | c
      · exact lookupFile_dir_cons_none ch0 n rest hfd
      · rw [lookupFile_dir_cons_some ch0 n rest c hfd]
        have hcm : c ∈ ch0 := List.mem_of_find?_eq_some hfd
        cases hc2 : c.2 with
        | file b =>
          have : (c.1, b) ∈ filesOf ch0 := by
            rw [filesOf_mem]
            rw [← hc2]
            exact hcm
          rw [hfz] at this
          simp at this
        | dir ch'' =>
          have hze : zipEntries c.2 = [] := by
            rcases hze : zipEntries c.2 with _ | ⟨e0, es0⟩
            · rfl
            · have : (c.1 :: e0.1, e0.2) ∈ zipChildren ch0 :=
                (zipChildren_mem ch0 _).mpr ⟨c, hcm, e0, by rw [hze]; simp⟩
              rw [hcz] at this
              simp at this
          exact hc2 ▸ ihch c hcm ch'' hc2 hze rest

theorem neChildren_cons (c : String × FSNode) (cs : List (String × FSNode)) :
    neChildren (c :: cs) = ((match c.2 with
      | .dir [] => false
      | _ => true) && noEmptyDirs c.2 && neChildren cs) := by
  rw [neChildren.eq_def]

/-- A nonempty directory with no (transitively) empty subdirectory
contributes at least one file entry to the archive. -/
theorem noEmpty_zip_ne : ∀ (t : FSNode) (ch : List (String × FSNode)),
    t = .dir ch → ch ≠ [] → noEmptyDirs t = true → zipEntries t ≠ [] := by
  intro t
  induction t using FSNode.inductionOn with
  | hf b => intro ch h; exact FSNode.noConfusion h
  | hd ch ihch =>
    intro ch0 heq hne hnoe
    have hch0 : ch0 = ch := by injection heq.symm
    subst hch0
    have hnec : neChildren ch0 = true := by
      unfold noEmptyDirs at hnoe
      exact hnoe
    rcases hch : ch0 with _ | ⟨c, cs⟩
    · exact absurd rfl (hch ▸ hne)
    · subst hch
      rw [neChildren_cons] at hnec
      simp only [Bool.and_eq_true] at hnec
      rw [zipEntries_dir_eq]
      intro hcontra
      rw [List.append_eq_nil] at hcontra
      obtain ⟨hfz, hcz⟩ := hcontra
      rw [List.map_eq_nil_iff] at hfz
      cases hc2 : c.2 with
      | file b =>
        have hm : (c.1, b) ∈ filesOf (c :: cs) := by
          rw [filesOf_mem, ← hc2]
          exact List.mem_cons_self _ _
        rw [hfz] at hm
        simp at hm
      | dir ch' =>
        have hg : ch' ≠ [] := by
          intro hnil
          subst hnil
          have := hnec.1.1
          rw [hc2] at this
          simp at this
        have hnoec : noEmptyDirs c.2 = true := hnec.1.2
        have hzc := ihch c (List.mem_cons_self _ _) ch' hc2 hg hnoec
        rcases hzz : zipEntries c.2 with _ | ⟨e0, es0⟩
        · exact hzc hzz
        · have hm : (c.1 :: e0.1, e0.2) ∈ zipChildren (c :: cs) :=
            (zipChildren_mem (c :: cs) _).mpr
              ⟨c, List.mem_cons_self _ _, e0, by rw [hzz]; simp⟩
          rw [hcz] at hm
          simp at hm

theorem canon_file (b : List Nat) : canon (.file b) = .file b := by
  rw [canon.eq_def]

/-- The canonical listing of a directory's children: the files in
order, then the file-carrying subdirectories. -/
def canonList (ch : List (String × FSNode)) : List (String × FSNode) :=
  (filesOf ch).map (fun p => (p.1, FSNode.file p.2)) ++ canonChildren ch

theorem canonList_eq (ch : List (String × FSNode)) :
    canon (.dir ch) = .dir (canonList ch) := canon_dir_eq ch

theorem canonList_nodup (ch : List (String × FSNode))
    (hnd : nodupKeys ch = true) : (keysOf (canonList ch)).Nodup :=
  canon_keys_nodup ch hnd

/-- In a listing with pairwise distinct keys, `find?` locates any
member by its key. -/
theorem find?_of_nodup (l : List (String × FSNode)) (hnd : (keysOf l).Nodup)
    (c : String × FSNode) (hc : c ∈ l) :
    l.find? (fun d => d.1 == c.1) = some c := by
  apply find?_key_unique
  · exact hc
  · intro c' hc' he
    exact List.inj_on_of_nodup_map hnd hc' hc he

/-- A file child of the original listing appears in the canonical
listing under its name, with its bytes. -/
theorem canonList_mem_file (ch : List (String × FSNode)) (c : String × FSNode)
    (hc : c ∈ ch) (b : List Nat) (hc2 : c.2 = .file b) :
    (c.1, FSNode.file b) ∈ canonList ch := by
  unfold canonList
  apply List.mem_append_left
  apply List.mem_map.mpr
  exact ⟨(c.1, b), (filesOf_mem ch c.1 b).mpr (by rw [← hc2]; exact hc), rfl⟩

/-- A file-carrying directory child of the original listing appears
canonicalised in the canonical listing under its name. -/
theorem canonList_mem_dir (ch : List (String × FSNode)) (c : String × FSNode)
    (hc : c ∈ ch) (ch' : List (String × FSNode)) (hc2 : c.2 = .dir ch')
    (hz : (zipEntries c.2).isEmpty = false) :
    (c.1, canon c.2) ∈ canonList ch := by
  unfold canonList
  exact List.mem_append_right _ ((canonChildren_mem ch c.1 (canon c.2)).mpr
    ⟨c, hc, ch', hc2, hz, rfl, rfl⟩)

/-- A name carried by no child of the original listing is carried by
no child of the canonical listing. -/
theorem canonList_find_none (ch : List (String × FSNode)) (n : String)
    (hno : ∀ d ∈ ch, d.1 ≠ n) :
    (canonList ch).find? (fun d => d.1 == n) = none := by
  apply find?_key_none
  intro d hd
  unfold canonList at hd
  rcases List.mem_append.mp hd with h | h
  · obtain ⟨q, hq, hqe⟩ := List.mem_map.mp h
    have hqch : (q.1, FSNode.file q.2) ∈ ch := (filesOf_mem ch q.1 q.2).mp hq
    intro he
    exact hno _ hqch ((congrArg Prod.fst hqe).trans he)
  · have hdf : (d.1, d.2) ∈ canonChildren ch := h
    obtain ⟨c0, hc0, ch'', hdd, hze, hxe, -⟩ := (canonChildren_mem ch d.1 d.2).mp hdf
    intro he
    exact hno c0 hc0 (hxe.symm.trans he)

/-- Canonicalisation preserves the bytes found at every file path. -/
theorem canon_lookupFile : ∀ (t : FSNode), wfTree t = true →
    ∀ p, lookupFile (canon t) p = lookupFile t p := by
  intro t
  induction t using FSNode.inductionOn with
  | hf b => intro _ p; rw [canon_file]
  | hd ch ihch =>
    intro hwf p
    obtain ⟨hnd, hwfc⟩ := (wfTree_dir ch).mp hwf
    rw [canonList_eq]
    rcases p with _ | ⟨n, rest⟩
    · rw [lookupFile_dir_nil, lookupFile_dir_nil]
    · rcases hfd : ch.find? (fun d => d.1 == n) with _ | c
      · have hno : ∀ d ∈ ch, d.1 ≠ n := by
          intro d hd he
          have h1 := List.find?_eq_none.mp hfd d hd
          simp [he] at h1
        rw [lookupFile_dir_cons_none _ n rest (canonList_find_none ch n hno),
            lookupFile_dir_cons_none _ n rest hfd]
      · have hcch : c ∈ ch := List.mem_of_find?_eq_some hfd
        have hcn : c.1 = n := by
          have h1 := List.find?_some hfd
          simpa using h1
        have hclnd : (keysOf (canonList ch)).Nodup := canonList_nodup ch hnd
        rw [lookupFile_dir_cons_some ch n rest c hfd]
        cases hc2 : c.2 with
        | file b =>
          have hmem := canonList_mem_file ch c hcch b hc2
          have hLfd : (canonList ch).find? (fun d => d.1 == n)
              = some (c.1, FSNode.file b) := by
            rw [← hcn]
            exact find?_of_nodup _ hclnd _ hmem
          rw [lookupFile_dir_cons_some _ n rest _ hLfd]
        | dir ch' =>
          rcases hz : (zipEntries c.2).isEmpty with _ | _
          · have hmem := canonList_mem_dir ch c hcch ch' hc2 hz
            have hLfd : (canonList ch).find? (fun d => d.1 == n)
                = some (c.1, canon c.2) := by
              rw [← hcn]
              exact find?_of_nodup _ hclnd _ hmem
            rw [lookupFile_dir_cons_some _ n rest _ hLfd, ← hc2]
            exact ihch c hcch (wfChildren_mem ch c hwfc hcch) rest
          · have hznil : zipEntries c.2 = [] := by
              rcases hzz : zipEntries c.2 with _ | ⟨e, es⟩
              · rfl
              · rw [hzz] at hz; simp at hz
            have hLfd : (canonList ch).find? (fun d => d.1 == n) = none := by
              apply find?_key_none
              intro d hd
              unfold canonList at hd
              rcases List.mem_append.mp hd with h | h
              · obtain ⟨q, hq, hqe⟩ := List.mem_map.mp h
                have hqch : (q.1, FSNode.file q.2) ∈ ch :=
                  (filesOf_mem ch q.1 q.2).mp hq
                intro he
                have hq1 : q.1 = c.1 := ((congrArg Prod.fst hqe).trans he).trans hcn.symm
                have heq := key_inj ch hnd c (q.1, FSNode.file q.2) hcch hqch hq1
                rw [← heq] at hc2
                exact FSNode.noConfusion hc2
              · have hdf : (d.1, d.2) ∈ canonChildren ch := h
                obtain ⟨c0, hc0, ch'', hdd, hze, hxe, -⟩ :=
                  (canonChildren_mem ch d.1 d.2).mp hdf
                intro he
                have hc01 : c0.1 = c.1 := (hxe.symm.trans he).trans hcn.symm
                have hcc := key_inj ch hnd c c0 hcch hc0 hc01
                rw [hcc, hznil] at hze
                simp at hze
            rw [lookupFile_dir_cons_none _ n rest hLfd, ← hc2]
            exact (zip_empty_no_files c.2 ch' hc2 hznil rest).symm

/-- Membership form of `neChildren`: each child has no empty
subdirectory and is not itself an empty directory. -/
theorem neChildren_mem (ch : List (String × FSNode)) (c : String × FSNode)
    (h : neChildren ch = true) (hm : c ∈ ch) :
    noEmptyDirs c.2 = true ∧ ∀ ch', c.2 = .dir ch' → ch' ≠ [] := by
  induction ch with
  | nil => simp at hm
  | cons d ds ih =>
    rw [neChildren_cons] at h
    simp only [Bool.and_eq_true] at h
    rcases List.mem_cons.mp hm with he | he
    · subst he
      refine ⟨h.1.2, ?_⟩
      intro ch' hce hnil
      subst hnil
      have h1 := h.1.1
      rw [hce] at h1
      simp at h1
    · exact ih h.2 he

/-- Canonicalisation preserves every directory path, provided every
directory transitively holds a file. -/
theorem canon_isDirAt : ∀ (t : FSNode), wfTree t = true →
    noEmptyDirs t = true → ∀ p, isDirAt (canon t) p = isDirAt t p := by
  intro t
  induction t using FSNode.inductionOn with
  | hf b => intro _ _ p; rw [canon_file]
  | hd ch ihch =>
    intro hwf hne p
    obtain ⟨hnd, hwfc⟩ := (wfTree_dir ch).mp hwf
    have hnec : neChildren ch = true := by
      unfold noEmptyDirs at hne
      exact hne
    rw [canonList_eq]
    rcases p with _ | ⟨n, rest⟩
    · rw [isDirAt_dir_nil, isDirAt_dir_nil]
    · rcases hfd : ch.find? (fun d => d.1 == n) with _ | c
      · have hno : ∀ d ∈ ch, d.1 ≠ n := by
          intro d hd he
          have h1 := List.find?_eq_none.mp hfd d hd
          simp [he] at h1
        rw [isDirAt_dir_cons_none _ n rest (canonList_find_none ch n hno),
            isDirAt_dir_cons_none _ n rest hfd]
      · have hcch : c ∈ ch := List.mem_of_find?_eq_some hfd
        have hcn : c.1 = n := by
          have h1 := List.find?_some hfd
          simpa using h1
        have hclnd : (keysOf (canonList ch)).Nodup := canonList_nodup ch hnd
        rw [isDirAt_dir_cons_some ch n rest c hfd]
        cases hc2 : c.2 with
        | file b =>
          have hmem := canonList_mem_file ch c hcch b hc2
          have hLfd : (canonList ch).find? (fun d => d.1 == n)
              = some (c.1, FSNode.file b) := by
            rw [← hcn]
            exact find?_of_nodup _ hclnd _ hmem
          rw [isDirAt_dir_cons_some _ n rest _ hLfd]
        | dir ch' =>
          have hmc := neChildren_mem ch c hnec hcch
          have hgne : ch' ≠ [] := hmc.2 ch' hc2
          have hnoec : noEmptyDirs c.2 = true := hmc.1
          have hz : (zipEntries c.2).isEmpty = false := by
            have h1 := noEmpty_zip_ne c.2 ch' hc2 hgne hnoec
            rcases hzz : zipEntries c.2 with _ | ⟨e, es⟩
            · exact absurd hzz h1
            · rfl
          have hmem := canonList_mem_dir ch c hcch ch' hc2 hz
          have hLfd : (canonList ch).find? (fun d => d.1 == n)
              = some (c.1, canon c.2) := by
            rw [← hcn]
            exact find?_of_nodup _ hclnd _ hmem
          rw [isDirAt_dir_cons_some _ n rest _ hLfd, ← hc2]
          exact ihch c hcch (wfChildren_mem ch c hwfc hcch) hnoec rest

/-- C5 (corrected): re-extracting the repackaged archive of any
well-formed working tree reproduces every file — the bytes looked up
at every path agree — and, provided every directory of the tree
transitively holds at least one file, it also reproduces every
directory path. (Empty directories are dropped, because the zip walk
writes only file entries; see the counterexample.) -/
theorem C5_repack_roundtrip (ch : List (String × FSNode))
    (hwf : wfTree (.dir ch) = true) :
    (∀ p, lookupFile (extractTree (zipEntries (.dir ch))) p
        = lookupFile (.dir ch) p)
    ∧ (noEmptyDirs (.dir ch) = true →
       ∀ p, isDirAt (extractTree (zipEntries (.dir ch))) p
          = isDirAt (.dir ch) p) := by
  rw [extract_zip_eq_canon (.dir ch) hwf ch rfl]
  exact ⟨canon_lookupFile (.dir ch) hwf,
    fun hne => canon_isDirAt (.dir ch) hwf hne⟩

/-- C5 counterexample to the claim as stated: a working tree holding
one empty folder `d` is not reproduced exactly — the path `d` is a
directory before repackaging and nothing after re-extraction, because
the zip walk (lines 152-156) writes only files and records no entry
for an empty directory. -/
theorem C5_counterexample :
    isDirAt (.dir [("d", FSNode.dir [])]) ["d"] = true
    ∧ isDirAt (extractTree (zipEntries (.dir [("d", FSNode.dir [])]))) ["d"]
      = false := by
  decide

/-- Witness for C5 on a concrete well-formed tree with a file at the
root and a file inside a subfolder. -/
theorem C5_witness :
    lookupFile (extractTree (zipEntries (.dir [("a.txt", FSNode.file [7]),
        ("d", FSNode.dir [("b.txt", FSNode.file [8])])]))) ["d", "b.txt"]
      = lookupFile (.dir [("a.txt", FSNode.file [7]),
        ("d", FSNode.dir [("b.txt", FSNode.file [8])])]) ["d", "b.txt"]
    ∧ isDirAt (extractTree (zipEntries (.dir [("a.txt", FSNode.file [7]),
        ("d", FSNode.dir [("b.txt", FSNode.file [8])])]))) ["d"]
      = isDirAt (.dir [("a.txt", FSNode.file [7]),
        ("d", FSNode.dir [("b.txt", FSNode.file [8])])]) ["d"] :=
  ⟨(C5_repack_roundtrip [("a.txt", FSNode.file [7]),
      ("d", FSNode.dir [("b.txt", FSNode.file [8])])] (by decide)).1
    ["d", "b.txt"],
   (C5_repack_roundtrip [("a.txt", FSNode.file [7]),
      ("d", FSNode.dir [("b.txt", FSNode.file [8])])] (by decide)).2
    (by decide) ["d"]⟩
